import Mathlib

/-!
# Verification of the ds-rom ROM container codec

This development shallowly embeds the core of the `ds-rom` library and
settles the specification's claims against it.  The crate's `io` module is
present in the sources and is translated directly; the codec modules
(`crc`, `compress`, `crypto`, `rom`) are declared in `lib.rs` but their
sources are not available, so they are modelled from the specification's
component contracts (each such definition carries a doc comment starting
with `Modelled from the spec:`).

Bytes are `Nat` values below 256, byte spans are `List Nat`, and 16/32-bit
machine arithmetic is explicit `% 2 ^ w` arithmetic on `Nat`.
-/

namespace ChecksumEngine

/-- Modelled from the spec: one shift of the 16-bit feedback register of the
CRC-16/ARC family (reflected convention, polynomial `0xA001`).  The `crc`
module is not under `src/`, so this follows §4.1 of the spec. -/
def crcShift (r : Nat) : Nat :=
  if r % 2 = 1 then (r / 2) ^^^ 0xA001 else r / 2

/-- Modelled from the spec: iterate the register shift. -/
def crcShifts : Nat → Nat → Nat
  | 0, r => r
  | n + 1, r => crcShifts n (crcShift r)

/-- Modelled from the spec: fold one input byte into the register
(reflected-input convention: XOR into the low byte, then eight shifts). -/
def crcByte (r b : Nat) : Nat :=
  crcShifts 8 (r ^^^ b % 256)

/-- Modelled from the spec: `checksum(bytes) -> u16`, a byte-by-byte fold of
the zero-seeded 16-bit feedback shift register over the span. -/
def checksum (bytes : List Nat) : Nat :=
  bytes.foldl crcByte 0

theorem crcShift_lt {r : Nat} (h : r < 2 ^ 16) : crcShift r < 2 ^ 16 := by
  unfold crcShift
  split
  · exact Nat.xor_lt_two_pow (by omega) (by norm_num)
  · omega

theorem crcShifts_lt {r : Nat} (n : Nat) (h : r < 2 ^ 16) : crcShifts n r < 2 ^ 16 := by
  induction n generalizing r with
  | zero => exact h
  | succ k ih => exact ih (crcShift_lt h)

theorem crcByte_lt {r : Nat} (b : Nat) (h : r < 2 ^ 16) : crcByte r b < 2 ^ 16 :=
  crcShifts_lt 8 (Nat.xor_lt_two_pow h (by have := Nat.mod_lt b (y := 256) (by omega); omega))

theorem checksum_foldl_lt (bytes : List Nat) {r : Nat} (h : r < 2 ^ 16) :
    bytes.foldl crcByte r < 2 ^ 16 := by
  induction bytes generalizing r with
  | nil => exact h
  | cons b rest ih => exact ih (crcByte_lt b h)

end ChecksumEngine

/-- C8: `ChecksumEngine.checksum` is a pure deterministic function of the
input span — equal inputs give equal 16-bit results — and the checksum of the
empty span is `0`, the initial value of the zero-seeded register. -/
theorem c8_checksum_deterministic_empty_zero :
    ChecksumEngine.checksum [] = 0 ∧
    (∀ a b : List Nat, a = b → ChecksumEngine.checksum a = ChecksumEngine.checksum b) ∧
    (∀ bytes : List Nat, ChecksumEngine.checksum bytes < 2 ^ 16) := by
  refine ⟨rfl, fun a b h => h ▸ rfl, fun bytes => ?_⟩
  exact ChecksumEngine.checksum_foldl_lt bytes (by norm_num)

/-- Witness for C8 at a concrete span. -/
theorem c8_checksum_deterministic_empty_zero_witness :
    ChecksumEngine.checksum [1, 2, 3] = ChecksumEngine.checksum [1, 2, 3] :=
  c8_checksum_deterministic_empty_zero.2.1 [1, 2, 3] [1, 2, 3] rfl

namespace RomIo

/-- Subset of `std::io::ErrorKind` distinguished by the `io` module's error
mapping. -/
inductive IoKind
  | notFound
  | alreadyExists
  | outOfMemory
  | other
deriving DecidableEq, Repr

/-- Path argument as the `io` module consumes it: the textual form used in
error payloads, whether `FusioPath::new` accepts it, and the result of
`Path::extension().and_then(to_str)` (absent or non-UTF-8 extensions are
`none`). -/
structure RustPath where
  repr : String
  valid : Bool
  ext : Option String
deriving DecidableEq, Repr

/-- Error enum `FileError` of `src/lib/src/io.rs`, payloads reduced to the
path's textual form. -/
inductive FileError
  | FileNotFound (path : String)
  | FileParentNotFound (path : String)
  | DirNotFound (path : String)
  | FileOutOfMemory (path : String)
  | DirOutOfMemory (path : String)
  | AlreadyExists (path : String)
  | Fs (path : String)
  | PathError
  | UnsupportedImageFormat (path : String)
  | ImageDecode (path : String)
deriving DecidableEq, Repr

/-- Result of a Rust call that may also panic. -/
inductive Outcome (α : Type)
  | ok (a : α)
  | err (e : FileError)
  | panicked
deriving DecidableEq, Repr

/-- Translation of `open_file`: the collaborator's `open_options` outcome is
the `low` argument; `NotFound` becomes `FileNotFound`, other failures become
`Fs`. -/
def open_file (low : Except IoKind Unit) (path : RustPath) : Except FileError Unit :=
  if path.valid then
    match low with
    | .ok u => .ok u
    | .error .notFound => .error (.FileNotFound path.repr)
    | .error _ => .error (.Fs path.repr)
  else .error .PathError

/-- Translation of `create_file`: `AlreadyExists` and `NotFound` get their
dedicated variants, other failures become `Fs`. -/
def create_file (low : Except IoKind Unit) (path : RustPath) : Except FileError Unit :=
  if path.valid then
    match low with
    | .ok u => .ok u
    | .error .alreadyExists => .error (.AlreadyExists path.repr)
    | .error .notFound => .error (.FileParentNotFound path.repr)
    | .error _ => .error (.Fs path.repr)
  else .error .PathError

/-- Translation of `read_file`: open, then map the `read_to_end_at` outcome
(`OutOfMemory`, `NotFound`, then a catch-all `Fs`), returning the buffer on
success. -/
def read_file (openRes readRes : Except IoKind Unit) (buf : List Nat) (path : RustPath) :
    Except FileError (List Nat) :=
  match open_file openRes path with
  | .error e => .error e
  | .ok _ =>
    match readRes with
    | .error .outOfMemory => .error (.FileOutOfMemory path.repr)
    | .error .notFound => .error (.FileNotFound path.repr)
    | .error _ => .error (.Fs path.repr)
    | .ok _ => .ok buf

/-- Translation of `write_file`: open (`NotFound` means the parent directory
is missing), write (`OutOfMemory` dedicated), then flush and close, every
other failure mapped to `Fs`. -/
def write_file (openRes writeRes flushRes closeRes : Except IoKind Unit) (path : RustPath) :
    Except FileError Unit :=
  if path.valid then
    match openRes with
    | .error .notFound => .error (.FileParentNotFound path.repr)
    | .error _ => .error (.Fs path.repr)
    | .ok _ =>
      match writeRes with
      | .error .outOfMemory => .error (.FileOutOfMemory path.repr)
      | .error _ => .error (.Fs path.repr)
      | .ok _ =>
        match flushRes with
        | .error _ => .error (.Fs path.repr)
        | .ok _ =>
          match closeRes with
          | .error _ => .error (.Fs path.repr)
          | .ok _ => .ok ()
  else .error .PathError

/-- Continuation byte test of UTF-8 validation (`0x80..=0xBF`). -/
def utf8Cont (c : Nat) : Bool :=
  0x80 ≤ c && c ≤ 0xBF

/-- UTF-8 validity of a byte sequence, as `String::from_utf8` checks it:
ASCII, two-, three- and four-byte sequences with the overlong, surrogate and
out-of-range forms rejected. -/
def validUtf8 : List Nat → Bool
  | [] => true
  | b :: rest =>
    if b ≤ 0x7F then validUtf8 rest
    else if b < 0xC2 then false
    else if b ≤ 0xDF then
      match rest with
      | c1 :: r => utf8Cont c1 && validUtf8 r
      | [] => false
    else if b ≤ 0xEF then
      match rest with
      | c1 :: c2 :: r =>
        (if b = 0xE0 then decide (0xA0 ≤ c1) && decide (c1 ≤ 0xBF)
         else if b = 0xED then decide (0x80 ≤ c1) && decide (c1 ≤ 0x9F)
         else utf8Cont c1) && utf8Cont c2 && validUtf8 r
      | _ => false
    else if b ≤ 0xF4 then
      match rest with
      | c1 :: c2 :: c3 :: r =>
        (if b = 0xF0 then decide (0x90 ≤ c1) && decide (c1 ≤ 0xBF)
         else if b = 0xF4 then decide (0x80 ≤ c1) && decide (c1 ≤ 0x8F)
         else utf8Cont c1) && utf8Cont c2 && utf8Cont c3 && validUtf8 r
      | _ => false
    else false

/-- Model of `String::from_utf8`: succeeds exactly on valid UTF-8 and the
string's bytes are the input bytes. -/
def from_utf8 (bs : List Nat) : Option (List Nat) :=
  if validUtf8 bs then some bs else none

/-- Translation of `read_to_string`: read the file like `read_file`, then
`String::from_utf8(buf).unwrap()` — a panic when the bytes are not valid
UTF-8. -/
def read_to_string (openRes readRes : Except IoKind Unit) (buf : List Nat) (path : RustPath) :
    Outcome (List Nat) :=
  match read_file openRes readRes buf path with
  | .error e => .err e
  | .ok bs =>
    match from_utf8 bs with
    | some s => .ok s
    | none => .panicked

/-- Entry collection loop of `read_dir`: successful metadata entries are
rooted at `/`, a failing entry aborts with `Fs`. -/
def collectEntries (path : RustPath) : List (Except Unit String) → List String →
    Outcome (List String)
  | [], acc => .ok acc.reverse
  | .ok s :: rest, acc => collectEntries path rest (("/" ++ s) :: acc)
  | .error _ :: _, _ => .err (.Fs path.repr)

/-- Translation of `read_dir`: `NotFound` and `OutOfMemory` get dedicated
variants, any other listing failure hits the source's `panic!` arm, then the
entry stream is drained. -/
def read_dir (listRes : Except IoKind Unit) (entries : List (Except Unit String))
    (path : RustPath) : Outcome (List String) :=
  if path.valid then
    match listRes with
    | .error .notFound => .err (.DirNotFound path.repr)
    | .error .outOfMemory => .err (.DirOutOfMemory path.repr)
    | .error _ => .panicked
    | .ok _ => collectEntries path entries []
  else .err .PathError

/-- Translation of `read_image`: read the file, `unwrap` the extension
(panic when absent), `unwrap` the `ImageFormat` lookup (panic when the
extension is not recognized), then decode, mapping decoder failures to
`ImageDecode`. `Fmt`/`Img` stand for the external crate's `ImageFormat` and
`DynamicImage`; the lookup and the decoder are the collaborator arguments. -/
def read_image (Fmt Img : Type) (openRes readRes : Except IoKind Unit) (buf : List Nat)
    (fromExtension : String → Option Fmt) (load : List Nat → Fmt → Except Unit Img)
    (path : RustPath) : Outcome Img :=
  match read_file openRes readRes buf path with
  | .error e => .err e
  | .ok data =>
    match path.ext with
    | none => .panicked
    | some s =>
      match fromExtension s with
      | none => .panicked
      | some fmt =>
        match load data fmt with
        | .error _ => .err (.ImageDecode path.repr)
        | .ok img => .ok img

/-- Concrete path with no extension, for the C9 counterexample. -/
def noExtPath : RustPath :=
  ⟨"banner", true, none⟩

/-- Extension lookup that recognizes nothing. -/
def fromExtNone : String → Option Nat :=
  fun _ => none

/-- Decoder collaborator that accepts anything. -/
def loadAny : List Nat → Nat → Except Unit Nat :=
  fun _ _ => .ok 0

end RomIo

namespace RomIo

theorem read_file_ok_eq {o r : Except IoKind Unit} {buf d : List Nat} {p : RustPath}
    (h : read_file o r buf p = Except.ok d) : d = buf := by
  unfold read_file at h
  rcases h' : open_file o p with e | u <;> rw [h'] at h
  · cases h
  · rcases r with k | u
    · rcases k <;> cases h
    · cases h
      rfl

theorem collectEntries_ne_unsupported (p : RustPath) (q : String) :
    ∀ (es : List (Except Unit String)) (acc : List String),
      collectEntries p es acc ≠ Outcome.err (FileError.UnsupportedImageFormat q) := by
  intro es
  induction es with
  | nil => intro acc; simp [collectEntries]
  | cons e rest ih =>
    intro acc
    rcases e with u | s <;> simp [collectEntries, ih]

theorem open_file_ne_unsupported (low : Except IoKind Unit) (p : RustPath) (q : String) :
    open_file low p ≠ Except.error (FileError.UnsupportedImageFormat q) := by
  unfold open_file
  by_cases h : p.valid <;> simp [h]
  rcases low with k | u
  · rcases k <;> simp
  · simp

end RomIo

namespace RomIo

theorem create_file_ne_unsupported (low : Except IoKind Unit) (p : RustPath) (q : String) :
    create_file low p ≠ Except.error (FileError.UnsupportedImageFormat q) := by
  unfold create_file
  by_cases h : p.valid <;> simp [h]
  rcases low with k | u
  · rcases k <;> simp
  · simp

theorem read_file_ne_unsupported (o r : Except IoKind Unit) (buf : List Nat) (p : RustPath)
    (q : String) : read_file o r buf p ≠ Except.error (FileError.UnsupportedImageFormat q) := by
  unfold read_file
  rcases h' : open_file o p with e | u <;> simp
  · intro he
    exact open_file_ne_unsupported o p q (by rw [h', he])
  · rcases r with k | u
    · rcases k <;> simp
    · simp

theorem write_file_ne_unsupported (o w f c : Except IoKind Unit) (p : RustPath) (q : String) :
    write_file o w f c p ≠ Except.error (FileError.UnsupportedImageFormat q) := by
  unfold write_file
  by_cases h : p.valid <;> simp [h]
  rcases o with k | u
  · rcases k <;> simp
  · rcases w with k | u
    · rcases k <;> simp
    · rcases f with k | u
      · rcases k <;> simp
      · rcases c with k | u
        · rcases k <;> simp
        · simp

theorem read_to_string_ne_unsupported (o r : Except IoKind Unit) (buf : List Nat)
    (p : RustPath) (q : String) :
    read_to_string o r buf p ≠ Outcome.err (FileError.UnsupportedImageFormat q) := by
  unfold read_to_string
  rcases h' : read_file o r buf p with e | bs <;> simp
  · intro he
    exact read_file_ne_unsupported o r buf p q (by rw [h', he])
  · rcases from_utf8 bs with _ | s <;> simp

theorem read_dir_ne_unsupported (l : Except IoKind Unit) (es : List (Except Unit String))
    (p : RustPath) (q : String) :
    read_dir l es p ≠ Outcome.err (FileError.UnsupportedImageFormat q) := by
  unfold read_dir
  by_cases h : p.valid <;> simp [h]
  rcases l with k | u
  · rcases k <;> simp
  · exact collectEntries_ne_unsupported p q es []

theorem read_image_ne_unsupported (Fmt Img : Type) (o r : Except IoKind Unit)
    (buf : List Nat) (fe : String → Option Fmt) (ld : List Nat → Fmt → Except Unit Img)
    (p : RustPath) (q : String) :
    read_image Fmt Img o r buf fe ld p ≠ Outcome.err (FileError.UnsupportedImageFormat q) := by
  unfold read_image
  rcases h' : read_file o r buf p with e | bs <;> simp
  · intro he
    exact read_file_ne_unsupported o r buf p q (by rw [h', he])
  · rcases p.ext with _ | s <;> simp
    rcases fe s with _ | fmt <;> simp
    rcases ld bs fmt with e | img <;> simp

end RomIo

/-- C9 counterexample: at a path with no extension whose read fails,
`read_image` returns the read error rather than panicking, so "for every
path whose extension is absent or unrecognized, `read_image` panics" is
false as stated. -/
theorem c9_counterexample_read_error_before_panic :
    RomIo.read_image Nat Nat (Except.error RomIo.IoKind.notFound) (Except.ok ()) []
        RomIo.fromExtNone RomIo.loadAny RomIo.noExtPath
      = RomIo.Outcome.err (RomIo.FileError.FileNotFound "banner") ∧
    RomIo.read_image Nat Nat (Except.error RomIo.IoKind.notFound) (Except.ok ()) []
        RomIo.fromExtNone RomIo.loadAny RomIo.noExtPath
      ≠ RomIo.Outcome.panicked := by
  constructor
  · rfl
  · decide

/-- C9 (amended): provided the file read succeeds, `read_image` panics via
the `unwrap` calls whenever the path's extension is absent or not a
recognized image format; and no function of the `io` module ever constructs
`FileError::UnsupportedImageFormat`. -/
theorem c9_read_image_panics_and_unsupported_unused :
    (∀ (Fmt Img : Type) (o r : Except RomIo.IoKind Unit) (buf : List Nat)
        (fe : String → Option Fmt) (ld : List Nat → Fmt → Except Unit Img) (p : RomIo.RustPath),
        RomIo.read_file o r buf p = Except.ok buf →
        (p.ext = none ∨ ∃ s, p.ext = some s ∧ fe s = none) →
        RomIo.read_image Fmt Img o r buf fe ld p = RomIo.Outcome.panicked) ∧
    (∀ (Fmt Img : Type) (o r : Except RomIo.IoKind Unit) (buf : List Nat)
        (fe : String → Option Fmt) (ld : List Nat → Fmt → Except Unit Img)
        (p : RomIo.RustPath) (q : String),
        RomIo.read_image Fmt Img o r buf fe ld p
          ≠ RomIo.Outcome.err (RomIo.FileError.UnsupportedImageFormat q)) ∧
    (∀ low p q, RomIo.open_file low p
          ≠ Except.error (RomIo.FileError.UnsupportedImageFormat q)) ∧
    (∀ low p q, RomIo.create_file low p
          ≠ Except.error (RomIo.FileError.UnsupportedImageFormat q)) ∧
    (∀ o r buf p q, RomIo.read_file o r buf p
          ≠ Except.error (RomIo.FileError.UnsupportedImageFormat q)) ∧
    (∀ o w f c p q, RomIo.write_file o w f c p
          ≠ Except.error (RomIo.FileError.UnsupportedImageFormat q)) ∧
    (∀ o r buf p q, RomIo.read_to_string o r buf p
          ≠ RomIo.Outcome.err (RomIo.FileError.UnsupportedImageFormat q)) ∧
    (∀ l es p q, RomIo.read_dir l es p
          ≠ RomIo.Outcome.err (RomIo.FileError.UnsupportedImageFormat q)) := by
  refine ⟨?_, RomIo.read_image_ne_unsupported, RomIo.open_file_ne_unsupported,
    RomIo.create_file_ne_unsupported, RomIo.read_file_ne_unsupported,
    RomIo.write_file_ne_unsupported, RomIo.read_to_string_ne_unsupported,
    RomIo.read_dir_ne_unsupported⟩
  intro Fmt Img o r buf fe ld p hread hext
  unfold RomIo.read_image
  rw [hread]
  rcases hext with h | ⟨s, hs, hfe⟩
  · simp [h]
  · simp [hs, hfe]

/-- Witness for C9 at a concrete instantiation: successful empty read at a
path with no extension panics. -/
theorem c9_read_image_panics_and_unsupported_unused_witness :
    RomIo.read_image Nat Nat (Except.ok ()) (Except.ok ()) [] RomIo.fromExtNone RomIo.loadAny
        RomIo.noExtPath = RomIo.Outcome.panicked :=
  c9_read_image_panics_and_unsupported_unused.1 Nat Nat (Except.ok ()) (Except.ok ()) []
    RomIo.fromExtNone RomIo.loadAny RomIo.noExtPath rfl (Or.inl rfl)

/-- C10: `read_to_string` returns `Ok` only when the file's bytes are valid
UTF-8, in which case the returned string's bytes equal the file's bytes; on
a successful read of bytes that are not valid UTF-8 it panics (the
`String::from_utf8(...).unwrap()`) instead of returning a `FileError`. -/
theorem c10_read_to_string_utf8_or_panic :
    (∀ (o r : Except RomIo.IoKind Unit) (buf : List Nat) (p : RomIo.RustPath) (s : List Nat),
        RomIo.read_to_string o r buf p = RomIo.Outcome.ok s →
        RomIo.validUtf8 buf = true ∧ s = buf) ∧
    (∀ (o r : Except RomIo.IoKind Unit) (buf : List Nat) (p : RomIo.RustPath),
        RomIo.read_file o r buf p = Except.ok buf → RomIo.validUtf8 buf = false →
        RomIo.read_to_string o r buf p = RomIo.Outcome.panicked) ∧
    (∀ (o r : Except RomIo.IoKind Unit) (buf : List Nat) (p : RomIo.RustPath),
        RomIo.read_file o r buf p = Except.ok buf → RomIo.validUtf8 buf = true →
        RomIo.read_to_string o r buf p = RomIo.Outcome.ok buf) := by
  refine ⟨?_, ?_, ?_⟩
  · intro o r buf p s h
    unfold RomIo.read_to_string at h
    rcases h' : RomIo.read_file o r buf p with e | bs <;> rw [h'] at h
    · cases h
    · have hb : bs = buf := RomIo.read_file_ok_eq h'
      subst hb
      unfold RomIo.from_utf8 at h
      by_cases hv : RomIo.validUtf8 bs <;> simp [hv] at h
      exact ⟨hv, h.symm⟩
  · intro o r buf p h hv
    unfold RomIo.read_to_string
    rw [h]
    unfold RomIo.from_utf8
    simp [hv]
  · intro o r buf p h hv
    unfold RomIo.read_to_string
    rw [h]
    unfold RomIo.from_utf8
    simp [hv]

/-- Witness for C10: a successful read of the invalid byte `0xFF` panics, and
a successful read of valid ASCII returns those very bytes. -/
theorem c10_read_to_string_utf8_or_panic_witness :
    RomIo.read_to_string (Except.ok ()) (Except.ok ()) [0xFF] RomIo.noExtPath
      = RomIo.Outcome.panicked ∧
    RomIo.read_to_string (Except.ok ()) (Except.ok ()) [0x68, 0x69] RomIo.noExtPath
      = RomIo.Outcome.ok [0x68, 0x69] :=
  ⟨c10_read_to_string_utf8_or_panic.2.1 (Except.ok ()) (Except.ok ()) [0xFF] RomIo.noExtPath
      rfl (by decide),
   c10_read_to_string_utf8_or_panic.2.2 (Except.ok ()) (Except.ok ()) [0x68, 0x69]
      RomIo.noExtPath rfl (by decide)⟩

namespace SecureAreaCipher

/-- Modelled from the spec: the static, built-in key-material table of the
`crypto` module (not under `src/`); process-wide constant data, here a fixed
arithmetic table reduced to 32 bits. -/
def keyMaterial (i : Nat) : Nat :=
  (i * 2654435761 + 40503) % 2 ^ 32

/-- Modelled from the spec: the per-title round-key schedule, derived once
from the key-material table combined with the numeric game-code seed, one
rotating 32-bit subkey per round of the 16-round network. -/
def roundKeys (seed : Nat) : List Nat :=
  (List.range 16).map fun i => (keyMaterial (2 * i) + seed * (i + 1)) % 2 ^ 32

/-- Modelled from the spec: the round function — a table lookup keyed by the
other half plus the per-round subkey. -/
def roundFn (k x : Nat) : Nat :=
  keyMaterial ((x + k) % 2 ^ 32 % 64)

/-- Modelled from the spec: one Feistel round — XOR one half with the round
function of the other half, then swap the halves. -/
def feistelStep (b : Nat × Nat) (k : Nat) : Nat × Nat :=
  (b.2, b.1 ^^^ roundFn k b.2)

/-- Modelled from the spec: the inverse round, used by decryption in reverse
key order with swapped roles. -/
def feistelStepInv (b : Nat × Nat) (k : Nat) : Nat × Nat :=
  (b.2 ^^^ roundFn k b.1, b.1)

/-- Modelled from the spec: encrypt one 8-byte block (two 32-bit halves). -/
def encryptBlock (ks : List Nat) (b : Nat × Nat) : Nat × Nat :=
  ks.foldl feistelStep b

/-- Modelled from the spec: decrypt one block — the rounds in reverse order
with swapped roles. -/
def decryptBlock (ks : List Nat) (b : Nat × Nat) : Nat × Nat :=
  ks.reverse.foldl feistelStepInv b

theorem decryptBlock_encryptBlock (ks : List Nat) (b : Nat × Nat) :
    decryptBlock ks (encryptBlock ks b) = b := by
  induction ks generalizing b with
  | nil => rfl
  | cons k ks ih =>
    have he : encryptBlock (k :: ks) b = encryptBlock ks (feistelStep b k) := rfl
    have hd : ∀ x, decryptBlock (k :: ks) x = feistelStepInv (decryptBlock ks x) k := by
      intro x
      unfold decryptBlock
      rw [List.reverse_cons, List.foldl_append]
      rfl
    rw [he, hd, ih (feistelStep b k)]
    obtain ⟨L, R⟩ := b
    simp [feistelStep, feistelStepInv, Nat.xor_cancel_right]

theorem keyMaterial_lt (i : Nat) : keyMaterial i < 2 ^ 32 :=
  Nat.mod_lt _ (by norm_num)

theorem roundFn_lt (k x : Nat) : roundFn k x < 2 ^ 32 :=
  keyMaterial_lt _

theorem encryptBlock_lt (ks : List Nat) (b : Nat × Nat) (h1 : b.1 < 2 ^ 32)
    (h2 : b.2 < 2 ^ 32) : (encryptBlock ks b).1 < 2 ^ 32 ∧ (encryptBlock ks b).2 < 2 ^ 32 := by
  induction ks generalizing b with
  | nil => exact ⟨h1, h2⟩
  | cons k ks ih =>
    have : encryptBlock (k :: ks) b = encryptBlock ks (feistelStep b k) := rfl
    rw [this]
    exact ih (feistelStep b k) h2 (Nat.xor_lt_two_pow h1 (roundFn_lt k b.2))

/-- Pack four little-endian bytes into one 32-bit word. -/
def packWord (b0 b1 b2 b3 : Nat) : Nat :=
  b0 + 256 * b1 + 65536 * b2 + 16777216 * b3

/-- Unpack a 32-bit word into four little-endian bytes. -/
def unpackWord (w : Nat) : List Nat :=
  [w % 256, w / 256 % 256, w / 65536 % 256, w / 16777216 % 256]

/-- Modelled from the spec: split a byte segment into 8-byte blocks of two
little-endian 32-bit halves. -/
def bytesToBlocks : List Nat → List (Nat × Nat)
  | b0 :: b1 :: b2 :: b3 :: b4 :: b5 :: b6 :: b7 :: rest =>
    (packWord b0 b1 b2 b3, packWord b4 b5 b6 b7) :: bytesToBlocks rest
  | _ => []

/-- Modelled from the spec: serialize blocks back to the byte segment. -/
def blocksToBytes : List (Nat × Nat) → List Nat
  | [] => []
  | (l, r) :: rest => unpackWord l ++ unpackWord r ++ blocksToBytes rest

theorem unpackWord_packWord (b0 b1 b2 b3 : Nat) (h0 : b0 < 256) (h1 : b1 < 256)
    (h2 : b2 < 256) (h3 : b3 < 256) : unpackWord (packWord b0 b1 b2 b3) = [b0, b1, b2, b3] := by
  simp only [unpackWord, packWord, List.cons.injEq, and_true]
  omega

theorem packWord_unpack (w : Nat) (h : w < 2 ^ 32) :
    packWord (w % 256) (w / 256 % 256) (w / 65536 % 256) (w / 16777216 % 256) = w := by
  unfold packWord
  omega

theorem packWord_lt (b0 b1 b2 b3 : Nat) (h0 : b0 < 256) (h1 : b1 < 256) (h2 : b2 < 256)
    (h3 : b3 < 256) : packWord b0 b1 b2 b3 < 2 ^ 32 := by
  unfold packWord
  omega

end SecureAreaCipher

namespace SecureAreaCipher

theorem blocksToBytes_bytesToBlocks (seg : List Nat) (hlen : seg.length % 8 = 0)
    (hb : ∀ b ∈ seg, b < 256) : blocksToBytes (bytesToBlocks seg) = seg := by
  induction seg using bytesToBlocks.induct with
  | case1 b0 b1 b2 b3 b4 b5 b6 b7 rest ih =>
    have hlen8 : rest.length % 8 = 0 := by
      simp only [List.length_cons] at hlen
      omega
    have hrest : ∀ b ∈ rest, b < 256 := fun b hmem => hb b (by simp [hmem])
    have h8 : ∀ i ∈ [b0, b1, b2, b3, b4, b5, b6, b7], i < 256 := fun i hmem =>
      hb i (by simp at hmem; rcases hmem with h | h | h | h | h | h | h | h <;> simp [h])
    simp only [bytesToBlocks, blocksToBytes]
    rw [unpackWord_packWord b0 b1 b2 b3 (h8 b0 (by simp)) (h8 b1 (by simp)) (h8 b2 (by simp))
        (h8 b3 (by simp)),
      unpackWord_packWord b4 b5 b6 b7 (h8 b4 (by simp)) (h8 b5 (by simp)) (h8 b6 (by simp))
        (h8 b7 (by simp)),
      ih hlen8 hrest]
    rfl
  | case2 seg hne =>
    rcases seg with _ | ⟨a0, _ | ⟨a1, _ | ⟨a2, _ | ⟨a3, _ | ⟨a4, _ | ⟨a5, _ | ⟨a6, _ |
      ⟨a7, rest⟩⟩⟩⟩⟩⟩⟩⟩
    · rfl
    all_goals first
      | (exact (hne _ _ _ _ _ _ _ _ _ rfl).elim)
      | (simp only [List.length_cons, List.length_nil] at hlen; omega)

end SecureAreaCipher

namespace SecureAreaCipher

theorem bytesToBlocks_blocksToBytes (blocks : List (Nat × Nat))
    (h : ∀ p ∈ blocks, p.1 < 2 ^ 32 ∧ p.2 < 2 ^ 32) :
    bytesToBlocks (blocksToBytes blocks) = blocks := by
  induction blocks with
  | nil => rfl
  | cons p rest ih =>
    obtain ⟨l, r⟩ := p
    have hl : l < 2 ^ 32 := (h (l, r) (by simp)).1
    have hr : r < 2 ^ 32 := (h (l, r) (by simp)).2
    have hrest : ∀ p ∈ rest, p.1 < 2 ^ 32 ∧ p.2 < 2 ^ 32 := fun p hp => h p (by simp [hp])
    show bytesToBlocks (unpackWord l ++ unpackWord r ++ blocksToBytes rest) = (l, r) :: rest
    simp only [unpackWord, List.cons_append, List.nil_append]
    rw [show ∀ xs, bytesToBlocks (l % 256 :: l / 256 % 256 :: l / 65536 % 256 ::
          l / 16777216 % 256 :: r % 256 :: r / 256 % 256 :: r / 65536 % 256 ::
          r / 16777216 % 256 :: xs)
        = (packWord (l % 256) (l / 256 % 256) (l / 65536 % 256) (l / 16777216 % 256),
           packWord (r % 256) (r / 256 % 256) (r / 65536 % 256) (r / 16777216 % 256))
          :: bytesToBlocks xs from fun xs => rfl]
    rw [packWord_unpack l hl, packWord_unpack r hr, ih hrest]

theorem bytesToBlocks_bounded (seg : List Nat) (hb : ∀ b ∈ seg, b < 256) :
    ∀ p ∈ bytesToBlocks seg, p.1 < 2 ^ 32 ∧ p.2 < 2 ^ 32 := by
  induction seg using bytesToBlocks.induct with
  | case1 b0 b1 b2 b3 b4 b5 b6 b7 rest ih =>
    intro p hp
    have h8 : ∀ i ∈ [b0, b1, b2, b3, b4, b5, b6, b7], i < 256 := fun i hmem =>
      hb i (by simp at hmem; rcases hmem with h | h | h | h | h | h | h | h <;> simp [h])
    have hrest : ∀ b ∈ rest, b < 256 := fun b hmem => hb b (by simp [hmem])
    rw [show bytesToBlocks (b0 :: b1 :: b2 :: b3 :: b4 :: b5 :: b6 :: b7 :: rest)
        = (packWord b0 b1 b2 b3, packWord b4 b5 b6 b7) :: bytesToBlocks rest from rfl] at hp
    rcases hp with _ | ⟨_, hp⟩
    · exact ⟨packWord_lt b0 b1 b2 b3 (h8 b0 (by simp)) (h8 b1 (by simp)) (h8 b2 (by simp))
          (h8 b3 (by simp)),
        packWord_lt b4 b5 b6 b7 (h8 b4 (by simp)) (h8 b5 (by simp)) (h8 b6 (by simp))
          (h8 b7 (by simp))⟩
    · exact ih hrest p hp
  | case2 seg hne =>
    intro p hp
    rcases seg with _ | ⟨a0, _ | ⟨a1, _ | ⟨a2, _ | ⟨a3, _ | ⟨a4, _ | ⟨a5, _ | ⟨a6, _ |
      ⟨a7, rest⟩⟩⟩⟩⟩⟩⟩⟩
    all_goals first
      | (exact (hne _ _ _ _ _ _ _ _ _ rfl).elim)
      | (simp [bytesToBlocks] at hp)

end SecureAreaCipher

namespace SecureAreaCipher

/-- Modelled from the spec: `encrypt(lead_segment, title_key_seed)` — block
the segment, run the Feistel rounds per block, serialize back to bytes. -/
def encrypt (seg : List Nat) (seed : Nat) : List Nat :=
  blocksToBytes ((bytesToBlocks seg).map (encryptBlock (roundKeys seed)))

/-- Modelled from the spec: raw Feistel decryption of the segment, before
the magic-marker recognition step. -/
def decryptRaw (seg : List Nat) (seed : Nat) : List Nat :=
  blocksToBytes ((bytesToBlocks seg).map (decryptBlock (roundKeys seed)))

/-- Modelled from the spec: the recognized magic marker the decrypted lead
segment must expose at its fixed (zero) offset. -/
def secureAreaMarker : List Nat :=
  [0x65, 0x6E, 0x63, 0x72, 0x79, 0x4F, 0x62, 0x6A]

/-- Failure of secure-area decryption. -/
inductive CryptoError
  | SecureAreaNotRecognized
deriving DecidableEq, Repr

/-- Modelled from the spec: `decrypt(lead_segment, title_key_seed)` — run
the rounds in reverse, then require the magic marker at the fixed offset;
without it decryption has failed with `SecureAreaNotRecognized`. -/
def decrypt (seg : List Nat) (seed : Nat) : Except CryptoError (List Nat) :=
  let p := decryptRaw seg seed
  if p.take 8 = secureAreaMarker then .ok p else .error .SecureAreaNotRecognized

/-- Modelled from the spec: the extraction caller's policy — a segment whose
decryption is not recognized is treated as already plaintext, with a
non-fatal warning recorded. -/
def processSecureArea (seg : List Nat) (seed : Nat) : List Nat × Option CryptoError :=
  match decrypt seg seed with
  | .ok p => (p, none)
  | .error e => (seg, some e)

theorem decryptRaw_encrypt (seg : List Nat) (seed : Nat) (hlen : seg.length % 8 = 0)
    (hb : ∀ b ∈ seg, b < 256) : decryptRaw (encrypt seg seed) seed = seg := by
  have hbound : ∀ p ∈ (bytesToBlocks seg).map (encryptBlock (roundKeys seed)),
      p.1 < 2 ^ 32 ∧ p.2 < 2 ^ 32 := by
    intro p hp
    rcases List.mem_map.mp hp with ⟨q, hq, hpe⟩
    have hqb := bytesToBlocks_bounded seg hb q hq
    rw [← hpe]
    exact encryptBlock_lt (roundKeys seed) q hqb.1 hqb.2
  have h1 : bytesToBlocks (blocksToBytes ((bytesToBlocks seg).map (encryptBlock (roundKeys seed))))
      = (bytesToBlocks seg).map (encryptBlock (roundKeys seed)) :=
    bytesToBlocks_blocksToBytes _ hbound
  show blocksToBytes ((bytesToBlocks (blocksToBytes ((bytesToBlocks seg).map
      (encryptBlock (roundKeys seed))))).map (decryptBlock (roundKeys seed))) = seg
  rw [h1, List.map_map]
  have hmap : ∀ l : List (Nat × Nat),
      l.map (decryptBlock (roundKeys seed) ∘ encryptBlock (roundKeys seed)) = l := by
    intro l
    induction l with
    | nil => rfl
    | cons x xs ih =>
      simp only [List.map_cons, Function.comp_apply, decryptBlock_encryptBlock, ih]
  rw [hmap]
  exact blocksToBytes_bytesToBlocks seg hlen hb

end SecureAreaCipher

/-- C3: for every lead segment (a byte span whose length is a multiple of 8,
exposing the magic marker as §4.3 requires of lead segments) and every seed,
`SecureAreaCipher.decrypt (SecureAreaCipher.encrypt x seed) seed`
returns exactly `x`. -/
theorem c3_cipher_roundtrip (seg : List Nat) (seed : Nat) (hlen : seg.length % 8 = 0)
    (hb : ∀ b ∈ seg, b < 256)
    (hmark : List.take 8 seg = SecureAreaCipher.secureAreaMarker) :
    SecureAreaCipher.decrypt (SecureAreaCipher.encrypt seg seed) seed = Except.ok seg := by
  unfold SecureAreaCipher.decrypt
  rw [SecureAreaCipher.decryptRaw_encrypt seg seed hlen hb]
  simp [hmark]

/-- Witness for C3: the eight marker bytes themselves round-trip through the
cipher at seed 7. -/
theorem c3_cipher_roundtrip_witness :
    SecureAreaCipher.decrypt
        (SecureAreaCipher.encrypt SecureAreaCipher.secureAreaMarker 7) 7
      = Except.ok SecureAreaCipher.secureAreaMarker :=
  c3_cipher_roundtrip SecureAreaCipher.secureAreaMarker 7 (by decide) (by decide) (by decide)

/-- C6: whenever raw decryption of a segment does not expose the magic
marker at the fixed offset, `SecureAreaCipher.decrypt` fails with
`SecureAreaNotRecognized` (never returning the garbage plaintext), and the
caller's policy keeps the segment as already plaintext while recording the
non-fatal warning. -/
theorem c6_unrecognized_secure_area (seg : List Nat) (seed : Nat)
    (hmark : List.take 8 (SecureAreaCipher.decryptRaw seg seed)
      ≠ SecureAreaCipher.secureAreaMarker) :
    SecureAreaCipher.decrypt seg seed
      = Except.error SecureAreaCipher.CryptoError.SecureAreaNotRecognized ∧
    SecureAreaCipher.processSecureArea seg seed
      = (seg, some SecureAreaCipher.CryptoError.SecureAreaNotRecognized) := by
  have hd : SecureAreaCipher.decrypt seg seed
      = Except.error SecureAreaCipher.CryptoError.SecureAreaNotRecognized := by
    unfold SecureAreaCipher.decrypt
    simp [hmark]
  refine ⟨hd, ?_⟩
  unfold SecureAreaCipher.processSecureArea
  rw [hd]

/-- Witness for C6: an all-zero 8-byte segment does not decrypt to the
marker, so it is rejected and kept as plaintext with a warning. -/
theorem c6_unrecognized_secure_area_witness :
    SecureAreaCipher.decrypt [0, 0, 0, 0, 0, 0, 0, 0] 0
      = Except.error SecureAreaCipher.CryptoError.SecureAreaNotRecognized ∧
    SecureAreaCipher.processSecureArea [0, 0, 0, 0, 0, 0, 0, 0] 0
      = ([0, 0, 0, 0, 0, 0, 0, 0], some SecureAreaCipher.CryptoError.SecureAreaNotRecognized) :=
  c6_unrecognized_secure_area [0, 0, 0, 0, 0, 0, 0, 0] 0 (by decide)

namespace BlockCompressor

/-- Modelled from the spec: a token of the compressed body — either a
literal byte copy or a back-reference with match length 3–18 and backward
distance 1–4096 into the already-produced output. -/
inductive Token
  | lit (b : Nat)
  | ref (len dist : Nat)
deriving DecidableEq, Repr

/-- Discriminant used by the per-group flag byte. -/
def isRef : Token → Bool
  | .lit _ => false
  | .ref _ _ => true

/-- Modelled from the spec: the 2-byte encoding of a back-reference (biased
length in the high nibble, biased distance split over the low nibble and the
second byte) and the 1-byte literal copy. -/
def tokenBytes : Token → List Nat
  | .lit b => [b]
  | .ref len dist => [(len - 3) * 16 + (dist - 1) / 256, (dist - 1) % 256]

/-- Value of a most-significant-first bit list. -/
def bitsVal (bs : List Bool) : Nat :=
  bs.foldl (fun acc b => 2 * acc + (if b then 1 else 0)) 0

/-- Modelled from the spec: the flag byte of one 8-token group, bits high to
low selecting literal or back-reference per token. -/
def flagByte (g : List Token) : Nat :=
  bitsVal (g.map isRef ++ List.replicate (8 - g.length) false)

/-- Flag-byte bits, high to low, as the decoder consumes them. -/
def flagsOf (f : Nat) : List Bool :=
  [decide (f / 128 % 2 = 1), decide (f / 64 % 2 = 1), decide (f / 32 % 2 = 1),
   decide (f / 16 % 2 = 1), decide (f / 8 % 2 = 1), decide (f / 4 % 2 = 1),
   decide (f / 2 % 2 = 1), decide (f % 2 = 1)]

/-- Decoding failure. -/
inductive CompressError
  | CorruptStream
deriving DecidableEq, Repr

/-- Modelled from the spec: copy `cnt` bytes from `dist` bytes behind the
output cursor, byte by byte (the output is kept reversed, so the byte
`dist` behind the cursor is at index `dist - 1`); reading before the start
of the output fails. -/
def refCopy (outRev : List Nat) (dist cnt : Nat) : Option (List Nat) :=
  match cnt with
  | 0 => some outRev
  | c + 1 =>
    match outRev[dist - 1]? with
    | none => none
    | some b => refCopy (b :: outRev) dist c

/-- Modelled from the spec: the token-group decoding loop — read a flag
byte when the current group is exhausted, then per flag bit copy one
literal byte or resolve one 2-byte back-reference; stop once the declared
size has been produced, failing on stream exhaustion or back-reference
underflow. -/
def loop : List Nat → List Bool → List Nat → Nat → Except CompressError (List Nat)
  | _, _, outRev, 0 => .ok outRev.reverse
  | [], [], _, _ + 1 => .error .CorruptStream
  | f :: rest, [], outRev, rem + 1 => loop rest (flagsOf f) outRev (rem + 1)
  | [], false :: _, _, _ + 1 => .error .CorruptStream
  | b :: rest, false :: fl, outRev, rem + 1 => loop rest fl (b :: outRev) rem
  | [], true :: _, _, _ + 1 => .error .CorruptStream
  | [_], true :: _, _, _ + 1 => .error .CorruptStream
  | b1 :: b2 :: rest, true :: fl, outRev, rem + 1 =>
    match refCopy outRev (b1 % 16 * 256 + b2 + 1) (min (b1 / 16 + 3) (rem + 1)) with
    | none => .error .CorruptStream
    | some outRev2 => loop rest fl outRev2 (rem + 1 - min (b1 / 16 + 3) (rem + 1))

/-- Modelled from the spec: `decompress(bytes, declared_size)` — skip the
4-byte scheme/size header, then run the token loop until `declared_size`
bytes have been produced. -/
def decompress (compressed : List Nat) (declaredSize : Nat) :
    Except CompressError (List Nat) :=
  match compressed with
  | _ :: _ :: _ :: _ :: body => loop body [] [] declaredSize
  | _ => .error .CorruptStream

end BlockCompressor

namespace BlockCompressor

theorem refCopy_length (dist : Nat) :
    ∀ (cnt : Nat) (outRev out2 : List Nat), refCopy outRev dist cnt = some out2 →
      out2.length = outRev.length + cnt := by
  intro cnt
  induction cnt with
  | zero =>
    intro outRev out2 h
    simp [refCopy] at h
    simp [h]
  | succ c ih =>
    intro outRev out2 h
    unfold refCopy at h
    rcases hg : outRev[dist - 1]? with _ | b <;> rw [hg] at h
    · cases h
    · have := ih (b :: outRev) out2 h
      simp only [List.length_cons] at this
      omega

theorem refCopy_none_iff (dist : Nat) (hd : 1 ≤ dist) :
    ∀ (cnt : Nat) (outRev : List Nat),
      refCopy outRev dist cnt = none ↔ 1 ≤ cnt ∧ outRev.length < dist := by
  intro cnt
  induction cnt with
  | zero =>
    intro outRev
    simp [refCopy]
  | succ c ih =>
    intro outRev
    unfold refCopy
    rcases hg : outRev[dist - 1]? with _ | b
    · have hlen : outRev.length ≤ dist - 1 := by
        have := List.getElem?_eq_none_iff.mp hg
        omega
      simp
      omega
    · have hlen : dist - 1 < outRev.length := by
        rcases List.getElem?_eq_some_iff.mp hg with ⟨hlt, _⟩
        omega
      rw [ih (b :: outRev)]
      simp only [List.length_cons]
      constructor
      · intro ⟨h1, h2⟩
        omega
      · intro ⟨h1, h2⟩
        omega

end BlockCompressor

namespace BlockCompressor

theorem loop_ok_length :
    ∀ (input : List Nat) (flags : List Bool) (outRev : List Nat) (rem : Nat) (out : List Nat),
      loop input flags outRev rem = Except.ok out → out.length = outRev.length + rem := by
  intro input flags outRev rem
  induction input, flags, outRev, rem using loop.induct with
  | case1 x x1 outRev =>
    intro out h
    simp only [loop, Except.ok.injEq] at h
    rw [← h]
    simp
  | case2 x n =>
    intro out h
    simp only [loop] at h
    cases h
  | case3 f rest outRev rem ih =>
    intro out h
    simp only [loop] at h
    exact ih out h
  | case4 tl x n =>
    intro out h
    simp only [loop] at h
    cases h
  | case5 b rest fl outRev rem ih =>
    intro out h
    simp only [loop] at h
    have := ih out h
    simp only [List.length_cons] at this
    omega
  | case6 tl x n =>
    intro out h
    simp only [loop] at h
    cases h
  | case7 hd tl x n =>
    intro out h
    simp only [loop] at h
    cases h
  | case8 b1 b2 rest fl outRev rem hnone =>
    intro out h
    simp only [loop] at h
    rw [hnone] at h
    cases h
  | case9 b1 b2 rest fl outRev rem outRev2 hsome ih =>
    intro out h
    simp only [loop] at h
    rw [hsome] at h
    have h1 := ih out h
    have h2 := refCopy_length (b1 % 16 * 256 + b2 + 1) (min (b1 / 16 + 3) (rem + 1))
      outRev outRev2 hsome
    omega

end BlockCompressor

namespace BlockCompressor

theorem loop_empty_input (flags : List Bool) (outRev : List Nat) (rem : Nat) (h : 1 ≤ rem) :
    loop [] flags outRev rem = Except.error CompressError.CorruptStream := by
  rcases rem with _ | r
  · omega
  · rcases flags with _ | ⟨b, fl⟩
    · simp [loop]
    · rcases b <;> simp [loop]

theorem decompress_short (s : List Nat) (n : Nat) (h : s.length < 4) :
    decompress s n = Except.error CompressError.CorruptStream := by
  rcases s with _ | ⟨a, _ | ⟨b, _ | ⟨c, _ | ⟨d, rest⟩⟩⟩⟩ <;>
    first
      | rfl
      | (simp only [List.length_cons, List.length_nil] at h; omega)

end BlockCompressor

/-- C5: `BlockCompressor.decompress` fails only with `CorruptStream`; when
it succeeds it returns exactly `declared_size` bytes; the back-reference
copy fails precisely on underflow (reading before the start of the output);
and an exhausted stream with output still owed fails (including a stream too
short for the 4-byte header). -/
theorem c5_decompress_error_characterization :
    (∀ (s : List Nat) (n : Nat) (out : List Nat),
        BlockCompressor.decompress s n = Except.ok out → out.length = n) ∧
    (∀ (s : List Nat) (n : Nat),
        (∃ out, BlockCompressor.decompress s n = Except.ok out) ∨
          BlockCompressor.decompress s n
            = Except.error BlockCompressor.CompressError.CorruptStream) ∧
    (∀ (dist cnt : Nat) (outRev : List Nat), 1 ≤ dist →
        (BlockCompressor.refCopy outRev dist cnt = none ↔
          1 ≤ cnt ∧ outRev.length < dist)) ∧
    (∀ (flags : List Bool) (outRev : List Nat) (rem : Nat), 1 ≤ rem →
        BlockCompressor.loop [] flags outRev rem
          = Except.error BlockCompressor.CompressError.CorruptStream) ∧
    (∀ (s : List Nat) (n : Nat), s.length < 4 →
        BlockCompressor.decompress s n
          = Except.error BlockCompressor.CompressError.CorruptStream) := by
  refine ⟨?_, ?_, ?_, ?_, ?_⟩
  · intro s n out h
    rcases s with _ | ⟨a, _ | ⟨b, _ | ⟨c, _ | ⟨d, body⟩⟩⟩⟩ <;>
      simp only [BlockCompressor.decompress] at h
    · cases h
    · cases h
    · cases h
    · cases h
    · have := BlockCompressor.loop_ok_length body [] [] n out h
      simpa using this
  · intro s n
    rcases h : BlockCompressor.decompress s n with e | out
    · rcases e
      exact Or.inr rfl
    · exact Or.inl ⟨out, rfl⟩
  · intro dist cnt outRev hd
    exact BlockCompressor.refCopy_none_iff dist hd cnt outRev
  · exact BlockCompressor.loop_empty_input
  · exact BlockCompressor.decompress_short

/-- Witness for C5 at concrete inputs: a two-byte stream (flag byte `0`,
literal `65`) yields exactly one byte; decoding from an empty body with one
byte owed fails; a back-reference into empty output underflows. -/
theorem c5_decompress_error_characterization_witness :
    ([65] : List Nat).length = 1 ∧
    BlockCompressor.loop [] [] [] 1
      = Except.error BlockCompressor.CompressError.CorruptStream ∧
    (BlockCompressor.refCopy [] 1 1 = none ↔ 1 ≤ 1 ∧ ([] : List Nat).length < 1) ∧
    BlockCompressor.decompress [16, 1, 0] 1
      = Except.error BlockCompressor.CompressError.CorruptStream :=
  ⟨c5_decompress_error_characterization.1 [16, 1, 0, 0, 0, 65] 1 [65] rfl,
   c5_decompress_error_characterization.2.2.2.1 [] [] 1 (by decide),
   c5_decompress_error_characterization.2.2.1 1 1 [] (by decide),
   c5_decompress_error_characterization.2.2.2.2 [16, 1, 0] 1 (by decide)⟩

namespace BlockCompressor

/-- Modelled from the spec: length of the match between the input at `src`
and at `pos`, bounded by `limit` (overlap with the yet-unproduced region is
allowed, supporting run-length patterns). -/
def matchLenAt (x : List Nat) : Nat → Nat → Nat → Nat
  | _, _, 0 => 0
  | src, pos, l + 1 =>
    match x[pos]?, x[src]? with
    | some a, some b => if a = b then 1 + matchLenAt x (src + 1) (pos + 1) l else 0
    | _, _ => 0

/-- Modelled from the spec: scan distances `1..d` and keep the longest
match (greedy longest-match search over the distance window). -/
def bestMatchGo (x : List Nat) (pos : Nat) : Nat → Nat × Nat
  | 0 => (0, 0)
  | d + 1 =>
    if (bestMatchGo x pos d).1 < matchLenAt x (pos - (d + 1)) pos (min 18 (x.length - pos))
    then (matchLenAt x (pos - (d + 1)) pos (min 18 (x.length - pos)), d + 1)
    else bestMatchGo x pos d

/-- Modelled from the spec: the greedy longest match at `pos` over the
4096-byte distance window, capped at length 18. -/
def bestMatch (x : List Nat) (pos : Nat) : Nat × Nat :=
  bestMatchGo x pos (min pos 4096)

/-- Modelled from the spec: tokenize the input greedily — emit a
back-reference where a match of length at least 3 exists, a literal
otherwise. -/
def emitTokens (x : List Nat) (pos : Nat) : List Token :=
  if h : pos < x.length then
    if 3 ≤ (bestMatch x pos).1 then
      Token.ref (bestMatch x pos).1 (bestMatch x pos).2 :: emitTokens x (pos + (bestMatch x pos).1)
    else
      Token.lit (x.get ⟨pos, h⟩) :: emitTokens x (pos + 1)
  else []
termination_by x.length - pos
decreasing_by
  · omega
  · omega

/-- Bytes of one token group, in token order. -/
def groupBytes (g : List Token) : List Nat :=
  g.foldr (fun t acc => tokenBytes t ++ acc) []

/-- Modelled from the spec: serialize the token stream in 8-token groups,
each preceded by its flag byte. -/
def serializeTokens : List Token → List Nat
  | [] => []
  | t :: rest =>
    (flagByte ((t :: rest).take 8) :: groupBytes ((t :: rest).take 8))
      ++ serializeTokens ((t :: rest).drop 8)
termination_by ts => ts.length
decreasing_by
  simp only [List.length_drop, List.length_cons]
  omega

/-- Modelled from the spec: `compress(bytes)` — the tag byte, the 24-bit
little-endian decompressed size, then the greedy token stream. -/
def compress (x : List Nat) : List Nat :=
  16 :: x.length % 256 :: x.length / 256 % 256 :: x.length / 65536 % 256
    :: serializeTokens (emitTokens x 0)

theorem matchLenAt_le (x : List Nat) :
    ∀ (l src pos : Nat), matchLenAt x src pos l ≤ l := by
  intro l
  induction l with
  | zero => intro src pos; simp [matchLenAt]
  | succ k ih =>
    intro src pos
    unfold matchLenAt
    rcases x[pos]? with _ | a <;> rcases x[src]? with _ | b <;> simp
    split
    · have := ih (src + 1) (pos + 1)
      omega
    · omega

theorem matchLenAt_match (x : List Nat) :
    ∀ (l src pos : Nat) (i : Nat), i < matchLenAt x src pos l →
      x[pos + i]? = x[src + i]? := by
  intro l
  induction l with
  | zero => intro src pos i hi; simp [matchLenAt] at hi
  | succ k ih =>
    intro src pos i hi
    unfold matchLenAt at hi
    rcases ha : x[pos]? with _ | a <;> rw [ha] at hi <;>
      rcases hb : x[src]? with _ | b <;> rw [hb] at hi
    · simp at hi
    · simp at hi
    · simp at hi
    · by_cases hab : a = b
      · have hi2 : i < 1 + matchLenAt x (src + 1) (pos + 1) k := by simpa [hab] using hi
        rcases i with _ | j
        · have hps : x[pos]? = x[src]? := by rw [ha, hb, hab]
          simpa using hps
        · have hj : j < matchLenAt x (src + 1) (pos + 1) k := by omega
          have hm := ih (src + 1) (pos + 1) j hj
          have e1 : pos + (j + 1) = pos + 1 + j := by omega
          have e2 : src + (j + 1) = src + 1 + j := by omega
          rw [e1, e2]
          exact hm
      · simp [hab] at hi

end BlockCompressor

namespace BlockCompressor

theorem bestMatchGo_spec (x : List Nat) (pos : Nat) :
    ∀ (D : Nat), 1 ≤ (bestMatchGo x pos D).1 →
      1 ≤ (bestMatchGo x pos D).2 ∧ (bestMatchGo x pos D).2 ≤ D ∧
      (bestMatchGo x pos D).1 ≤ min 18 (x.length - pos) ∧
      ∀ i < (bestMatchGo x pos D).1,
        x[pos + i]? = x[pos - (bestMatchGo x pos D).2 + i]? := by
  intro D
  induction D with
  | zero =>
    intro h
    simp [bestMatchGo] at h
  | succ d ih =>
    unfold bestMatchGo
    by_cases hc : (bestMatchGo x pos d).1
        < matchLenAt x (pos - (d + 1)) pos (min 18 (x.length - pos))
    · rw [if_pos hc]
      intro _
      refine ⟨by omega, le_refl _, matchLenAt_le x _ _ _, ?_⟩
      intro i hi
      exact matchLenAt_match x _ _ _ i hi
    · rw [if_neg hc]
      intro h
      obtain ⟨h1, h2, h3, h4⟩ := ih h
      exact ⟨h1, by omega, h3, h4⟩

/-- Invariant tying a token stream to the input it was produced from: each
token reproduces the input at its position. -/
def goodTokens (x : List Nat) : Nat → List Token → Prop
  | pos, [] => pos = x.length
  | pos, Token.lit b :: rest => x[pos]? = some b ∧ goodTokens x (pos + 1) rest
  | pos, Token.ref len dist :: rest =>
      3 ≤ len ∧ len ≤ 18 ∧ 1 ≤ dist ∧ dist ≤ 4096 ∧ dist ≤ pos ∧ pos + len ≤ x.length ∧
      (∀ i < len, x[pos + i]? = x[pos - dist + i]?) ∧ goodTokens x (pos + len) rest

theorem emitTokens_good_fuel (x : List Nat) :
    ∀ (fuel pos : Nat), x.length - pos ≤ fuel → pos ≤ x.length →
      goodTokens x pos (emitTokens x pos) := by
  intro fuel
  induction fuel with
  | zero =>
    intro pos h1 h2
    have hp : ¬ pos < x.length := by omega
    unfold emitTokens
    rw [dif_neg hp]
    simp only [goodTokens]
    omega
  | succ f ih =>
    intro pos h1 h2
    by_cases hp : pos < x.length
    · unfold emitTokens
      rw [dif_pos hp]
      by_cases h3 : 3 ≤ (bestMatch x pos).1
      · rw [if_pos h3]
        unfold bestMatch at h3 ⊢
        obtain ⟨hd1, hd2, hl, hmatch⟩ := bestMatchGo_spec x pos (min pos 4096) (by omega)
        simp only [goodTokens]
        refine ⟨h3, by omega, hd1, by omega, by omega, by omega, hmatch, ?_⟩
        exact ih (pos + (bestMatchGo x pos (min pos 4096)).1) (by omega) (by omega)
      · rw [if_neg h3]
        simp only [goodTokens]
        refine ⟨?_, ih (pos + 1) (by omega) (by omega)⟩
        simp [List.getElem?_eq_getElem hp]
    · have : pos = x.length := by omega
      unfold emitTokens
      rw [dif_neg hp]
      simp only [goodTokens]
      omega

theorem emitTokens_good (x : List Nat) : goodTokens x 0 (emitTokens x 0) :=
  emitTokens_good_fuel x x.length 0 (by omega) (by omega)

end BlockCompressor

namespace BlockCompressor

theorem flagsOf_bitsVal : ∀ (bs : List Bool), bs.length = 8 → flagsOf (bitsVal bs) = bs := by
  intro bs hlen
  rcases bs with _ | ⟨a, _ | ⟨b, _ | ⟨c, _ | ⟨d, _ | ⟨e, _ | ⟨f, _ | ⟨g, _ |
    ⟨h8, tl⟩⟩⟩⟩⟩⟩⟩⟩ <;>
    simp only [List.length_cons, List.length_nil] at hlen <;> try omega
  have htl : tl = [] := by
    have : tl.length = 0 := by omega
    exact List.eq_nil_of_length_eq_zero this
  subst htl
  rcases a <;> rcases b <;> rcases c <;> rcases d <;> rcases e <;> rcases f <;> rcases g <;>
    rcases h8 <;> decide

theorem flagsOf_flagByte (g : List Token) (h : g.length ≤ 8) :
    flagsOf (flagByte g) = g.map isRef ++ List.replicate (8 - g.length) false := by
  unfold flagByte
  apply flagsOf_bitsVal
  simp only [List.length_append, List.length_map, List.length_replicate]
  omega

end BlockCompressor

namespace BlockCompressor

theorem take_reverse_cons (x : List Nat) (pos : Nat) (b : Nat) (hb : x[pos]? = some b) :
    (x.take (pos + 1)).reverse = b :: (x.take pos).reverse := by
  rw [List.take_succ, hb]
  simp

theorem refCopy_take (x : List Nat) :
    ∀ (cnt pos dist : Nat), 1 ≤ dist → dist ≤ pos → pos + cnt ≤ x.length →
      (∀ i < cnt, x[pos + i]? = x[pos - dist + i]?) →
      refCopy ((x.take pos).reverse) dist cnt = some ((x.take (pos + cnt)).reverse) := by
  intro cnt
  induction cnt with
  | zero =>
    intro pos dist _ _ _ _
    simp [refCopy]
  | succ c ih =>
    intro pos dist hd1 hdp hlen hmatch
    have hpos : pos < x.length := by omega
    have htl : (x.take pos).length = pos := by
      simp only [List.length_take]
      omega
    have hidx : dist - 1 < ((x.take pos).reverse).length := by
      simp only [List.length_reverse]
      omega
    have hsrc : ((x.take pos).reverse)[dist - 1]? = x[pos - dist]? := by
      rw [List.getElem?_reverse (by omega)]
      rw [htl]
      have : pos - 1 - (dist - 1) = pos - dist := by omega
      rw [this]
      exact List.getElem?_take_of_lt (by omega)
    have hcur : x[pos]? = x[pos - dist]? := by
      have := hmatch 0 (by omega)
      simpa using this
    have hb : x[pos]? = some x[pos] := List.getElem?_eq_getElem hpos
    unfold refCopy
    rw [hsrc, ← hcur, hb]
    have hcons : (x[pos] : Nat) :: (x.take pos).reverse = (x.take (pos + 1)).reverse :=
      (take_reverse_cons x pos _ hb).symm
    show refCopy ((x[pos] : Nat) :: (x.take pos).reverse) dist c
      = some ((x.take (pos + (c + 1))).reverse)
    rw [hcons]
    have hrec := ih (pos + 1) dist hd1 (by omega) (by omega) (by
      intro i hi
      have := hmatch (i + 1) (by omega)
      have e1 : pos + (i + 1) = pos + 1 + i := by omega
      have e2 : pos - dist + (i + 1) = pos + 1 - dist + i := by omega
      rw [e1, e2] at this
      exact this)
    rw [hrec]
    have : pos + 1 + c = pos + (c + 1) := by omega
    rw [this]

end BlockCompressor

namespace BlockCompressor

theorem goodTokens_head_lt (x : List Nat) (pos : Nat) (t : Token) (ts : List Token)
    (h : goodTokens x pos (t :: ts)) : pos < x.length := by
  rcases t with b | ⟨len, dist⟩
  · simp only [goodTokens] at h
    rcases List.getElem?_eq_some_iff.mp h.1 with ⟨hlt, _⟩
    exact hlt
  · simp only [goodTokens] at h
    omega

theorem loop_decode (x : List Nat) :
    ∀ (N : Nat) (g ts2 : List Token) (pad : List Bool) (pos : Nat),
      2 * (g.length + ts2.length) + (if g = [] then 1 else 0) ≤ N →
      (ts2 ≠ [] → pad = []) →
      goodTokens x pos (g ++ ts2) →
      loop (groupBytes g ++ serializeTokens ts2) (g.map isRef ++ pad)
        ((x.take pos).reverse) (x.length - pos) = Except.ok x := by
  intro N
  induction N with
  | zero =>
    intro g ts2 pad pos hN hpad hgood
    rcases g with _ | ⟨t, g2⟩ <;> simp at hN
  | succ N ih =>
    intro g ts2 pad pos hN hpad hgood
    rcases g with _ | ⟨t, g2⟩
    · rcases ts2 with _ | ⟨t2, rest2⟩
      · simp only [List.nil_append, goodTokens] at hgood
        have hrem : x.length - pos = 0 := by omega
        rw [show groupBytes [] = [] from rfl]
        rw [show serializeTokens [] = [] from by simp [serializeTokens]]
        rw [hrem]
        simp only [loop, List.nil_append]
        rw [List.reverse_reverse, hgood, List.take_length]
      · have hpad2 : pad = [] := hpad (by simp)
        subst hpad2
        have hlt : pos < x.length := goodTokens_head_lt x pos t2 rest2 (by simpa using hgood)
        have hrem : x.length - pos = (x.length - pos - 1) + 1 := by omega
        rw [show groupBytes [] ++ serializeTokens (t2 :: rest2)
            = serializeTokens (t2 :: rest2) from rfl]
        rw [show (List.map isRef [] ++ [] : List Bool) = [] from rfl]
        rw [show serializeTokens (t2 :: rest2)
            = (flagByte ((t2 :: rest2).take 8) :: groupBytes ((t2 :: rest2).take 8))
              ++ serializeTokens ((t2 :: rest2).drop 8) from by
          rw [serializeTokens]]
        rw [hrem]
        simp only [List.cons_append, loop]
        rw [← hrem]
        have htake8 : ((t2 :: rest2).take 8).length ≤ 8 := by
          simp only [List.length_take]
          omega
        rw [flagsOf_flagByte _ htake8]
        have happ : (t2 :: rest2).take 8 ++ (t2 :: rest2).drop 8 = t2 :: rest2 :=
          List.take_append_drop 8 (t2 :: rest2)
        apply ih
        · have h1 : ((t2 :: rest2).take 8).length + ((t2 :: rest2).drop 8).length
              = rest2.length + 1 := by
            rw [← List.length_append, happ]
            simp
          have h2 : (t2 :: rest2).take 8 ≠ [] := by simp
          have hN2 : 2 * (rest2.length + 1) + 1 ≤ N + 1 := by simpa using hN
          simp only [if_neg h2]
          omega
        · intro hne
          have hlong : 8 < (t2 :: rest2).length := by
            by_contra hle
            push_neg at hle
            rw [List.drop_eq_nil_of_le hle] at hne
            exact hne rfl
          have : ((t2 :: rest2).take 8).length = 8 := by
            simp only [List.length_take]
            omega
          rw [this]
          simp
        · rw [happ]
          simpa using hgood
    · rcases t with b | ⟨len, dist⟩
      · simp only [List.cons_append, goodTokens] at hgood
        obtain ⟨hb, hrest⟩ := hgood
        have hlt : pos < x.length := by
          rcases List.getElem?_eq_some_iff.mp hb with ⟨hlt, _⟩
          exact hlt
        have hrem : x.length - pos = (x.length - pos - 1) + 1 := by omega
        rw [show groupBytes (Token.lit b :: g2) ++ serializeTokens ts2
            = b :: (groupBytes g2 ++ serializeTokens ts2) from by
          simp [groupBytes, tokenBytes]]
        rw [show List.map isRef (Token.lit b :: g2) ++ pad
            = false :: (List.map isRef g2 ++ pad) from by simp [isRef]]
        rw [hrem]
        simp only [loop]
        rw [← take_reverse_cons x pos b hb]
        rw [show x.length - pos - 1 = x.length - (pos + 1) from by omega]
        apply ih
        · have hsplit : (if g2 = [] then 1 else 0) ≤ 1 := by split <;> omega
          simp only [List.length_cons] at hN
          simp only [if_neg (by simp : ¬ Token.lit b :: g2 = [])] at hN
          omega
        · exact hpad
        · exact hrest
      · simp only [List.cons_append, goodTokens] at hgood
        obtain ⟨hl3, hl18, hd1, hd4096, hdp, hplen, hmatch, hrest⟩ := hgood
        have hlt : pos < x.length := by omega
        have hrem : x.length - pos = (x.length - pos - 1) + 1 := by omega
        rw [show groupBytes (Token.ref len dist :: g2) ++ serializeTokens ts2
            = ((len - 3) * 16 + (dist - 1) / 256) :: ((dist - 1) % 256)
              :: (groupBytes g2 ++ serializeTokens ts2) from by
          simp [groupBytes, tokenBytes]]
        rw [show List.map isRef (Token.ref len dist :: g2) ++ pad
            = true :: (List.map isRef g2 ++ pad) from by simp [isRef]]
        rw [hrem]
        simp only [loop]
        have hb1div : ((len - 3) * 16 + (dist - 1) / 256) / 16 + 3 = len := by omega
        have hb1mod : ((len - 3) * 16 + (dist - 1) / 256) % 16 * 256 + (dist - 1) % 256 + 1
            = dist := by omega
        rw [hb1div, hb1mod]
        have hmin : min len (x.length - pos - 1 + 1) = len := by omega
        rw [hmin]
        rw [refCopy_take x len pos dist hd1 hdp hplen hmatch]
        rw [show x.length - pos - 1 + 1 - len = x.length - (pos + len) from by omega]
        apply ih
        · have hsplit : (if g2 = [] then 1 else 0) ≤ 1 := by split <;> omega
          simp only [List.length_cons] at hN
          simp only [if_neg (by simp : ¬ Token.ref len dist :: g2 = [])] at hN
          omega
        · exact hpad
        · exact hrest

end BlockCompressor

/-- C2: for every byte span `x`,
`BlockCompressor.decompress (BlockCompressor.compress x) x.length` yields
exactly `x` — the greedy encoder need only satisfy this equation, and does. -/
theorem c2_compress_decompress_roundtrip (x : List Nat) :
    BlockCompressor.decompress (BlockCompressor.compress x) x.length = Except.ok x := by
  have hmain := BlockCompressor.loop_decode x (2 * (BlockCompressor.emitTokens x 0).length + 1)
    [] (BlockCompressor.emitTokens x 0) [] 0 (by simp) (fun _ => rfl)
    (by simpa using BlockCompressor.emitTokens_good x)
  show BlockCompressor.loop (BlockCompressor.serializeTokens (BlockCompressor.emitTokens x 0))
      [] [] x.length = Except.ok x
  simpa using hmain

namespace FileTable

/-- Read a 16-bit little-endian field. -/
def readU16 (m : List Nat) (off : Nat) : Option Nat :=
  match m[off]?, m[off + 1]? with
  | some a, some b => some (a + 256 * b)
  | _, _ => none

/-- Read a 32-bit little-endian field. -/
def readU32 (m : List Nat) (off : Nat) : Option Nat :=
  match m[off]?, m[off + 1]?, m[off + 2]?, m[off + 3]? with
  | some a, some b, some c, some d => some (a + 256 * b + 65536 * c + 16777216 * d)
  | _, _, _, _ => none

/-- Modelled from the spec: failures of the directory-table codec (the `rom`
module is not under `src/`); `FuelExhausted` is the explicit recursion-depth
marker, proved unreachable below. -/
inductive FsError
  | CyclicDirectoryGraph
  | DirectoryGraphInconsistent
  | TruncatedImage
  | FuelExhausted
deriving DecidableEq, Repr

/-- Modelled from the spec: one subtable entry — a file entry with its name
bytes, or a directory entry with its name bytes and 2-byte child id. -/
inductive SubEntry
  | fileEntry (name : List Nat)
  | dirEntry (name : List Nat) (childId : Nat)
deriving DecidableEq, Repr

/-- Modelled from the spec: a parsed directory — named files with their
assigned file ids, and named subdirectories. -/
inductive PDir
  | mk (files : List (List Nat × Nat)) (subdirs : List (List Nat × PDir))

/-- Modelled from the spec: scan one subtable — a length-and-kind byte
(`0` ends the subtable, `1..127` a file entry with that many name bytes,
`128..255` a directory entry with `length - 128` name bytes and a 2-byte
child id); reads past the region fail with `TruncatedImage`.  The fuel is
one byte of the region per entry, shown sufficient below. -/
def parseSubtable (fnt : List Nat) : Nat → Nat → Except FsError (List SubEntry)
  | 0, _ => .error .FuelExhausted
  | fuel + 1, off =>
    match fnt[off]? with
    | none => .error .TruncatedImage
    | some L =>
      if L = 0 then .ok []
      else if L ≤ 127 then
        if off + 1 + L ≤ fnt.length then
          match parseSubtable fnt fuel (off + 1 + L) with
          | .ok rest => .ok (.fileEntry ((fnt.drop (off + 1)).take L) :: rest)
          | .error e => .error e
        else .error .TruncatedImage
      else
        if off + 1 + (L - 128) + 2 ≤ fnt.length then
          match readU16 fnt (off + 1 + (L - 128)) with
          | some cid =>
            match parseSubtable fnt fuel (off + 1 + (L - 128) + 2) with
            | .ok rest => .ok (.dirEntry ((fnt.drop (off + 1)).take (L - 128)) cid :: rest)
            | .error e => .error e
          | none => .error .TruncatedImage
        else .error .TruncatedImage

/-- Names of the file entries of a subtable, in order. -/
def fileNames : List SubEntry → List (List Nat)
  | [] => []
  | .fileEntry n :: rest => n :: fileNames rest
  | .dirEntry _ _ :: rest => fileNames rest

/-- Directory references of a subtable, in order. -/
def dirRefs : List SubEntry → List (List Nat × Nat)
  | [] => []
  | .fileEntry _ :: rest => dirRefs rest
  | .dirEntry n c :: rest => (n, c) :: dirRefs rest

/-- Assign consecutive file ids starting at the directory's recorded first
file id, in subtable order. -/
def withIds (firstId : Nat) : List (List Nat) → List (List Nat × Nat)
  | [] => []
  | n :: rest => (n, firstId) :: withIds (firstId + 1) rest

/-- Modelled from the spec: resolve the child directories of one subtable —
a child id already visited is a cycle (`CyclicDirectoryGraph`), a child id
outside the directory-record range is dangling
(`DirectoryGraphInconsistent`); otherwise the child is resolved through
`pd` with the child id pushed onto the visited set. -/
def parseChildrenWith (pd : Nat → List Nat → Except FsError (PDir × List Nat)) (dc : Nat) :
    List (List Nat × Nat) → List Nat → Except FsError (List (List Nat × PDir) × List Nat)
  | [], visited => .ok ([], visited)
  | (name, cid) :: rest, visited =>
    if cid ∈ visited then .error .CyclicDirectoryGraph
    else if cid < 0xF000 ∨ 0xF000 + dc ≤ cid then .error .DirectoryGraphInconsistent
    else
      match pd cid (cid :: visited) with
      | .error e => .error e
      | .ok (sub, v2) =>
        match parseChildrenWith pd dc rest v2 with
        | .error e => .error e
        | .ok (subs, v3) => .ok ((name, sub) :: subs, v3)

/-- Modelled from the spec: resolve one directory — read its record (8
bytes per record, subtable offset and first file id), parse its subtable,
assign file ids consecutively, and resolve child directories recursively
while tracking the visited directory ids. -/
def parseDir (fnt : List Nat) (dc : Nat) : Nat → Nat → List Nat →
    Except FsError (PDir × List Nat)
  | 0, _, _ => .error .FuelExhausted
  | fuel + 1, id, visited =>
    match readU32 fnt ((id - 0xF000) * 8), readU16 fnt ((id - 0xF000) * 8 + 4) with
    | some subOff, some firstId =>
      match parseSubtable fnt (fnt.length + 1) subOff with
      | .ok entries =>
        match parseChildrenWith (parseDir fnt dc fuel) dc (dirRefs entries) visited with
        | .ok (subs, v2) => .ok (.mk (withIds firstId (fileNames entries)) subs, v2)
        | .error e => .error e
      | .error e => .error e
    | _, _ => .error .TruncatedImage

/-- Modelled from the spec: parse the directory table — the root record's
third field is the directory count; the root directory id is `0xF000` and
the recursion depth is bounded by the directory count. -/
def parseFileTable (fnt : List Nat) : Except FsError PDir :=
  match readU16 fnt 6 with
  | none => .error .TruncatedImage
  | some dc =>
    match parseDir fnt dc (dc + 1) 0xF000 [0xF000] with
    | .ok (root, _) => .ok root
    | .error e => .error e

end FileTable

namespace FileTable

/-- Visited-set invariant: no duplicates, every id in the directory-id
range. -/
def Inv (dc : Nat) (v : List Nat) : Prop :=
  v.Nodup ∧ ∀ i ∈ v, 0xF000 ≤ i ∧ i ≤ 0xF000 + dc

theorem inv_length_le (dc : Nat) (v : List Nat) (h : Inv dc v) : v.length ≤ dc + 1 := by
  rcases h with ⟨hnd, hmem⟩
  have hsub : v.toFinset ⊆ Finset.Icc 0xF000 (0xF000 + dc) := by
    intro i hi
    rw [List.mem_toFinset] at hi
    rcases hmem i hi with ⟨h1, h2⟩
    exact Finset.mem_Icc.mpr ⟨h1, h2⟩
  have hcard := Finset.card_le_card hsub
  rw [List.toFinset_card_of_nodup hnd, Nat.card_Icc] at hcard
  omega

theorem parseSubtable_no_fe (fnt : List Nat) :
    ∀ (fuel off : Nat), fnt.length - off < fuel →
      parseSubtable fnt fuel off ≠ Except.error FsError.FuelExhausted := by
  intro fuel
  induction fuel with
  | zero => intro off h; omega
  | succ f ih =>
    intro off h
    unfold parseSubtable
    rcases hL : fnt[off]? with _ | L
    · simp
    · have hofflt : off < fnt.length := (List.getElem?_eq_some_iff.mp hL).1
      by_cases h0 : L = 0
      · simp [h0]
      · by_cases h127 : L ≤ 127
        · simp only [if_neg h0, if_pos h127]
          by_cases hb : off + 1 + L ≤ fnt.length
          · simp only [if_pos hb]
            have hrec := ih (off + 1 + L) (by omega)
            rcases hp : parseSubtable fnt f (off + 1 + L) with e | rest
            · simp only []
              intro hcontra
              apply hrec
              rw [hp]
              cases hcontra
              rfl
            · simp
          · simp [if_neg hb]
        · simp only [if_neg h0, if_neg h127]
          by_cases hb : off + 1 + (L - 128) + 2 ≤ fnt.length
          · simp only [if_pos hb]
            rcases hc : readU16 fnt (off + 1 + (L - 128)) with _ | cid
            · simp
            · have hrec := ih (off + 1 + (L - 128) + 2) (by omega)
              rcases hp : parseSubtable fnt f (off + 1 + (L - 128) + 2) with e | rest
              · simp only []
                intro hcontra
                apply hrec
                rw [hp]
                cases hcontra
                rfl
              · simp
          · simp [if_neg hb]

end FileTable



namespace FileTable

theorem parseDir_no_fe (fnt : List Nat) (dc : Nat) :
    ∀ (fuel id : Nat) (visited : List Nat), Inv dc visited →
      dc + 2 ≤ fuel + visited.length →
      (parseDir fnt dc fuel id visited ≠ Except.error FsError.FuelExhausted) ∧
      (∀ (d : PDir) (v2 : List Nat), parseDir fnt dc fuel id visited = Except.ok (d, v2) →
        Inv dc v2 ∧ visited.length ≤ v2.length) := by
  intro fuel
  induction fuel using Nat.strong_induction_on with
  | _ fuel ihf =>
    intro id visited hInv hfuel
    rcases fuel with _ | f
    · have := inv_length_le dc visited hInv
      omega
    · have hchildren : ∀ (refs : List (List Nat × Nat)) (vis : List Nat), Inv dc vis →
          dc + 1 ≤ f + vis.length →
          (parseChildrenWith (parseDir fnt dc f) dc refs vis
            ≠ Except.error FsError.FuelExhausted) ∧
          (∀ (subs : List (List Nat × PDir)) (v3 : List Nat),
            parseChildrenWith (parseDir fnt dc f) dc refs vis
              = Except.ok (subs, v3) →
            Inv dc v3 ∧ vis.length ≤ v3.length) := by
        intro refs
        induction refs with
        | nil =>
          intro vis hInv2 hf2
          refine ⟨by simp [parseChildrenWith], ?_⟩
          intro subs v3 hok
          simp only [parseChildrenWith, Except.ok.injEq, Prod.mk.injEq] at hok
          rw [← hok.2]
          exact ⟨hInv2, le_refl _⟩
        | cons r rest ihr =>
          intro vis hInv2 hf2
          obtain ⟨name, cid⟩ := r
          by_cases hmem : cid ∈ vis
          · simp [parseChildrenWith, hmem]
          · by_cases hrange : cid < 0xF000 ∨ 0xF000 + dc ≤ cid
            · simp [parseChildrenWith, hmem, hrange]
            · push_neg at hrange
              have hInvPush : Inv dc (cid :: vis) := by
                refine ⟨List.Nodup.cons hmem hInv2.1, ?_⟩
                intro i hi
                rcases List.mem_cons.mp hi with hi | hi
                · subst hi
                  omega
                · exact hInv2.2 i hi
              have hdirRes := ihf f (by omega) cid (cid :: vis) hInvPush (by
                simp only [List.length_cons]
                omega)
              simp only [parseChildrenWith, if_neg hmem,
                if_neg (by push_neg; exact hrange :
                  ¬ (cid < 0xF000 ∨ 0xF000 + dc ≤ cid))]
              split
              next e hpd =>
                refine ⟨?_, by intro subs v3 hok; cases hok⟩
                intro hc
                exact hdirRes.1 (hpd.trans (by simpa using hc))
              next sub v2 hpd =>
                have hpost := hdirRes.2 sub v2 hpd
                have hrest := ihr v2 hpost.1 (by
                  have h2 := hpost.2
                  simp only [List.length_cons] at h2
                  omega)
                split
                next e2 hpc =>
                  refine ⟨?_, by intro subs v3 hok; cases hok⟩
                  intro hc
                  exact hrest.1 (hpc.trans (by simpa using hc))
                next subs v3 hpc =>
                  have hpost2 := hrest.2 subs v3 hpc
                  refine ⟨by simp, ?_⟩
                  intro subs2 v4 hok
                  simp only [Except.ok.injEq, Prod.mk.injEq] at hok
                  rw [← hok.2]
                  refine ⟨hpost2.1, ?_⟩
                  have h2 := hpost.2
                  simp only [List.length_cons] at h2
                  omega
      unfold parseDir
      split
      next subOff firstId h32 h16 =>
        split
        next entries hsub =>
          split
          next subs v2 hpc =>
            have hpost := (hchildren (dirRefs entries) visited hInv (by omega)).2 subs v2 hpc
            refine ⟨by simp, ?_⟩
            intro d v3 hok
            simp only [Except.ok.injEq, Prod.mk.injEq] at hok
            rw [← hok.2]
            exact hpost
          next e hpc =>
            refine ⟨?_, by intro d v2 hok; cases hok⟩
            intro hc
            exact (hchildren (dirRefs entries) visited hInv (by omega)).1
              (hpc.trans (by simpa using hc))
        next e hsub =>
          refine ⟨?_, by intro d v2 hok; cases hok⟩
          intro hc
          exact parseSubtable_no_fe fnt (fnt.length + 1) subOff (by omega)
            (hsub.trans (by simpa using hc))
      next h =>
        simp

end FileTable

namespace FileTable

theorem parseFileTable_no_fe (fnt : List Nat) :
    parseFileTable fnt ≠ Except.error FsError.FuelExhausted := by
  unfold parseFileTable
  split
  · simp
  next dc h16 =>
    have hmain := parseDir_no_fe fnt dc (dc + 1) 0xF000 [0xF000]
      ⟨List.nodup_singleton _, by intro i hi; simp at hi; omega⟩ (by simp)
    split
    next root v hok => simp
    next e herr =>
      intro hc
      exact hmain.1 (herr.trans (by simpa using hc))

/-- Crafted directory table from the spec's test: the root record declares
one directory, and the root's subtable holds a directory entry whose child
id `0xF000` equals the root's own (an ancestor's) id. -/
def cyclicFnt : List Nat :=
  [8, 0, 0, 0, 0, 0, 1, 0, 129, 97, 0, 240, 0]

end FileTable

/-- C4: `FileTable` parsing terminates on every image — the recursion-depth
marker `FuelExhausted` is unreachable with the directory-count fuel budget —
because traversal tracks visited directory identifiers: a child id already
visited fails immediately with `CyclicDirectoryGraph`, as the crafted
subtable whose child id equals its ancestor's id shows concretely. -/
theorem c4_filetable_terminates_and_detects_cycles :
    (∀ fnt : List Nat,
      FileTable.parseFileTable fnt ≠ Except.error FileTable.FsError.FuelExhausted) ∧
    (∀ (pd : Nat → List Nat → Except FileTable.FsError (FileTable.PDir × List Nat))
        (dc : Nat) (name : List Nat) (cid : Nat) (refs : List (List Nat × Nat))
        (visited : List Nat), cid ∈ visited →
        FileTable.parseChildrenWith pd dc ((name, cid) :: refs) visited
          = Except.error FileTable.FsError.CyclicDirectoryGraph) ∧
    FileTable.parseFileTable FileTable.cyclicFnt
      = Except.error FileTable.FsError.CyclicDirectoryGraph := by
  refine ⟨FileTable.parseFileTable_no_fe, ?_, by rfl⟩
  intro pd dc name cid refs visited hmem
  simp [FileTable.parseChildrenWith, hmem]

/-- Witness for C4: a subtable entry referencing the already-visited root id
is rejected as a cycle. -/
theorem c4_filetable_terminates_and_detects_cycles_witness :
    FileTable.parseChildrenWith
        (fun _ _ => Except.error FileTable.FsError.TruncatedImage) 1
        [([97], 61440)] [61440]
      = Except.error FileTable.FsError.CyclicDirectoryGraph :=
  c4_filetable_terminates_and_detects_cycles.2.1 _ 1 [97] 61440 [] [61440] (by decide)

namespace RomAssembler

mutual
/-- Modelled from the spec: a directory tree with named files (name bytes,
content bytes) and named subdirectories, the input the builder accepts and
the output extraction materializes. -/
inductive FsTree where
  | node : List (List Nat × List Nat) → FsForest → FsTree
/-- Subdirectory list of a tree (name bytes and subtree), a mutual
inductive so that all traversals are structural. -/
inductive FsForest where
  | fnil : FsForest
  | fcons : List Nat → FsTree → FsForest → FsForest
end

mutual
/-- Number of directories of a tree (itself included). -/
def countDirs : FsTree → Nat
  | .node _ subs => 1 + countDirsF subs
/-- Number of directories of a forest. -/
def countDirsF : FsForest → Nat
  | .fnil => 0
  | .fcons _ t rest => countDirs t + countDirsF rest
end

mutual
/-- Number of files of a tree. -/
def countFiles : FsTree → Nat
  | .node files subs => files.length + countFilesF subs
/-- Number of files of a forest. -/
def countFilesF : FsForest → Nat
  | .fnil => 0
  | .fcons _ t rest => countFiles t + countFilesF rest
end

mutual
/-- Every file and directory name fits the length-prefix encoding
(1 to 127 name bytes). -/
def validT : FsTree → Bool
  | .node files subs =>
    files.all (fun f => decide (1 ≤ f.1.length ∧ f.1.length ≤ 127)) && validF subs
/-- Name validity over a forest. -/
def validF : FsForest → Bool
  | .fnil => true
  | .fcons n t rest =>
    decide (1 ≤ n.length ∧ n.length ≤ 127) && validT t && validF rest
end

/-- One directory of the flattened arena: its files, its child references
(name and child directory id), its parent id and its first file id. -/
structure FlatRec where
  files : List (List Nat × List Nat)
  kids : List (List Nat × Nat)
  parent : Nat
  firstId : Nat

/-- Child references of a forest whose first subtree gets directory id
`nextId`, subsequent ids skipping each subtree's directory count
(depth-first preorder numbering). -/
def kidRefs : FsForest → Nat → List (List Nat × Nat)
  | .fnil, _ => []
  | .fcons n t rest, nextId => (n, nextId) :: kidRefs rest (nextId + countDirs t)

mutual
/-- Modelled from the spec: flatten a tree into the arena, assigning
directory ids in depth-first preorder and file ids depth-first with a
directory's own files before its subdirectories. -/
def flatT : FsTree → Nat → Nat → Nat → List FlatRec
  | .node files subs, myId, parent, firstId =>
    ⟨files, kidRefs subs (myId + 1), parent, firstId⟩
      :: flatF subs (myId + 1) myId (firstId + files.length)
/-- Arena records of a forest. -/
def flatF : FsForest → Nat → Nat → Nat → List FlatRec
  | .fnil, _, _, _ => []
  | .fcons _ t rest, nextId, parent, nextFile =>
    flatT t nextId parent nextFile
      ++ flatF rest (nextId + countDirs t) parent (nextFile + countFiles t)
end

/-- Concatenation of chunks. -/
def cat {α : Type} : List (List α) → List α
  | [] => []
  | l :: rest => l ++ cat rest

/-- Little-endian 16-bit field. -/
def u16b (v : Nat) : List Nat :=
  [v % 256, v / 256 % 256]

/-- Little-endian 32-bit field. -/
def u32b (v : Nat) : List Nat :=
  [v % 256, v / 256 % 256, v / 65536 % 256, v / 16777216 % 256]

/-- Subtable bytes of one file entry: the name length as the kind byte,
then the name bytes. -/
def fileEntBytes (f : List Nat × List Nat) : List Nat :=
  f.1.length :: f.1

/-- Subtable bytes of one directory entry: name length plus 128 as the kind
byte, the name bytes, then the 2-byte child id. -/
def dirEntBytes (k : List Nat × Nat) : List Nat :=
  (128 + k.1.length) :: (k.1 ++ u16b k.2)

/-- Modelled from the spec: one directory's subtable — its file entries,
its directory entries, then the terminating zero kind byte. -/
def subBytes (r : FlatRec) : List Nat :=
  cat (r.files.map fileEntBytes) ++ cat (r.kids.map dirEntBytes) ++ [0]

/-- Byte size of one subtable. -/
def subSize (r : FlatRec) : Nat :=
  (subBytes r).length

/-- Directory records after the root, each with the running subtable
offset. -/
def recsGo : List FlatRec → Nat → List Nat
  | [], _ => []
  | r :: rest, off => u32b off ++ u16b r.firstId ++ u16b r.parent ++ recsGo rest (off + subSize r)

/-- Modelled from the spec: the directory-table region — the root record
(subtable offset, first file id, directory count), the remaining records
(subtable offset, first file id, parent id), then every subtable in
directory-id order. -/
def fntBytes (A : List FlatRec) (dc : Nat) : List Nat :=
  (match A with
   | [] => []
   | r0 :: rest =>
     u32b (8 * (rest.length + 1)) ++ u16b r0.firstId ++ u16b dc
       ++ recsGo rest (8 * (rest.length + 1) + subSize r0))
  ++ cat (A.map subBytes)

/-- File contents in file-id order: the arena's directories in order, each
directory's files in order. -/
def contentsA (A : List FlatRec) : List (List Nat) :=
  cat (A.map (fun r => r.files.map Prod.snd))

/-- Modelled from the spec: the allocation table — one (start, end) pair of
32-bit offsets per file id, files placed contiguously from `off`. -/
def fatGo : List (List Nat) → Nat → List Nat
  | [], _ => []
  | c :: rest, off => u32b off ++ u32b (off + c.length) ++ fatGo rest (off + c.length)

/-- Build-side failure: the capacity validation. -/
inductive BuildError
  | CapacityOverflow
deriving DecidableEq, Repr

/-- Modelled from the spec: assemble the image — a fixed header (directory
table offset and size, allocation table offset and size), the directory
table, the allocation table, then the raw file bytes. -/
def image (t : FsTree) : List Nat :=
  let A := flatT t 0xF000 0 0
  let fnt := fntBytes A A.length
  let cs := contentsA A
  let fatOff := 16 + fnt.length
  let dataOff := fatOff + 8 * cs.length
  u32b 16 ++ u32b fnt.length ++ u32b fatOff ++ u32b (8 * cs.length)
    ++ fnt ++ fatGo cs dataOff ++ cat cs

/-- Modelled from the spec: the builder validates every capacity bound
(identifier widths, name lengths, total size against the capacity class)
before writing anything; a violation is fatal with `CapacityOverflow`. -/
def build (t : FsTree) (cap : Nat) : Except BuildError (List Nat) :=
  if validT t = true ∧ countDirs t ≤ 4096 ∧ countFiles t < 61440
      ∧ (image t).length ≤ 131072 * 2 ^ cap ∧ (image t).length < 4294967296
  then .ok (image t)
  else .error .CapacityOverflow

/-- Modelled from the spec: the storage collaborator — building appends the
finished image to the store only on success; on a failure the store is
untouched. -/
def buildTo (t : FsTree) (cap : Nat) (store : List (List Nat)) :
    List (List Nat) × Option BuildError :=
  match build t cap with
  | .ok img => (store ++ [img], none)
  | .error e => (store, some e)

end RomAssembler

/-- C7: the builder fails with `CapacityOverflow` exactly when a capacity
bound is violated (name not encodable in the length prefix, too many
directories or files for the identifier widths, or image size beyond the
capacity class), and on that failure it aborts before any bytes are
written: the storage state is returned unchanged. -/
theorem c7_capacity_overflow_aborts_before_write :
    (∀ (t : RomAssembler.FsTree) (cap : Nat),
      RomAssembler.build t cap = Except.error RomAssembler.BuildError.CapacityOverflow ↔
        ¬ (RomAssembler.validT t = true ∧ RomAssembler.countDirs t ≤ 4096 ∧
           RomAssembler.countFiles t < 61440 ∧
           (RomAssembler.image t).length ≤ 131072 * 2 ^ cap ∧
           (RomAssembler.image t).length < 4294967296)) ∧
    (∀ (t : RomAssembler.FsTree) (cap : Nat) (store : List (List Nat))
        (e : RomAssembler.BuildError),
      RomAssembler.build t cap = Except.error e →
        RomAssembler.buildTo t cap store = (store, some e)) ∧
    (∀ (t : RomAssembler.FsTree) (cap : Nat) (store : List (List Nat)) (img : List Nat),
      RomAssembler.build t cap = Except.ok img →
        RomAssembler.buildTo t cap store = (store ++ [img], none)) := by
  refine ⟨?_, ?_, ?_⟩
  · intro t cap
    unfold RomAssembler.build
    split
    next h => simp [h]
    next h => simp [h]
  · intro t cap store e h
    unfold RomAssembler.buildTo
    rw [h]
  · intro t cap store img h
    unfold RomAssembler.buildTo
    rw [h]

set_option maxRecDepth 8000 in
/-- Witness for C7: a file name of 128 bytes cannot be encoded, so the
build fails with `CapacityOverflow` and the store stays unchanged; a
one-file tree with a short name builds fine and only then is the image
appended. -/
theorem c7_capacity_overflow_aborts_before_write_witness :
    RomAssembler.buildTo
        (RomAssembler.FsTree.node [(List.replicate 128 7, [])] RomAssembler.FsForest.fnil) 3 []
      = ([], some RomAssembler.BuildError.CapacityOverflow) ∧
    RomAssembler.buildTo (RomAssembler.FsTree.node [([97], [1, 2, 3])] RomAssembler.FsForest.fnil)
        3 []
      = ([RomAssembler.image
            (RomAssembler.FsTree.node [([97], [1, 2, 3])] RomAssembler.FsForest.fnil)], none) :=
  ⟨c7_capacity_overflow_aborts_before_write.2.1
      (RomAssembler.FsTree.node [(List.replicate 128 7, [])] RomAssembler.FsForest.fnil) 3 []
      RomAssembler.BuildError.CapacityOverflow (by rfl),
   by
    have := c7_capacity_overflow_aborts_before_write.2.2
      (RomAssembler.FsTree.node [([97], [1, 2, 3])] RomAssembler.FsForest.fnil) 3 []
      (RomAssembler.image (RomAssembler.FsTree.node [([97], [1, 2, 3])] RomAssembler.FsForest.fnil))
      (by rfl)
    simpa using this⟩

namespace RomExtractor

open RomAssembler FileTable

/-- Modelled from the spec: fetch one file's bytes through its allocation
entry — read the (start, end) pair at the file id's slot and slice the
image, requiring `start ≤ end ≤ image length`. -/
def fetchFile (img : List Nat) (fatOff fid : Nat) : Except FsError (List Nat) :=
  match readU32 img (fatOff + 8 * fid), readU32 img (fatOff + 8 * fid + 4) with
  | some s, some e =>
    if s ≤ e ∧ e ≤ img.length then .ok ((img.drop s).take (e - s))
    else .error .TruncatedImage
  | _, _ => .error .TruncatedImage

/-- Resolve the named file ids of one parsed directory to their bytes. -/
def resolveFiles (img : List Nat) (fatOff : Nat) :
    List (List Nat × Nat) → Except FsError (List (List Nat × List Nat))
  | [] => .ok []
  | (n, fid) :: rest =>
    match fetchFile img fatOff fid with
    | .ok c =>
      match resolveFiles img fatOff rest with
      | .ok rs => .ok ((n, c) :: rs)
      | .error e => .error e
    | .error e => .error e

/-- Resolve a parsed directory's subdirectories through `rd`. -/
def resolveSubsWith (rd : PDir → Except FsError FsTree) :
    List (List Nat × PDir) → Except FsError FsForest
  | [] => .ok .fnil
  | (n, d) :: rest =>
    match rd d with
    | .ok t =>
      match resolveSubsWith rd rest with
      | .ok f => .ok (.fcons n t f)
      | .error e => .error e
    | .error e => .error e

/-- Modelled from the spec: materialize a parsed directory — fetch each
file through the allocation table and recurse into subdirectories (depth
fuel, shown sufficient at the call site). -/
def resolvePDir (img : List Nat) (fatOff : Nat) : Nat → PDir → Except FsError FsTree
  | 0, _ => .error .FuelExhausted
  | fuel + 1, .mk files subs =>
    match resolveFiles img fatOff files with
    | .ok fs =>
      match resolveSubsWith (resolvePDir img fatOff fuel) subs with
      | .ok forest => .ok (.node fs forest)
      | .error e => .error e
    | .error e => .error e

/-- Modelled from the spec: the extraction pipeline — read the header's
table locations, parse the directory table, then materialize the tree
through the allocation table. -/
def extract (img : List Nat) : Except FsError FsTree :=
  match readU32 img 0, readU32 img 4, readU32 img 8 with
  | some fntOff, some fntSize, some fatOff =>
    let region := (img.drop fntOff).take fntSize
    match readU16 region 6 with
    | some dc =>
      match parseFileTable region with
      | .ok root => resolvePDir img fatOff (dc + 1) root
      | .error e => .error e
    | none => .error .TruncatedImage
  | _, _, _ => .error .TruncatedImage

mutual
/-- Expected parse of a tree: names with depth-first file ids. -/
def pdirT : FsTree → Nat → PDir
  | .node files subs, firstId =>
    .mk (withIds firstId (files.map Prod.fst)) (pdirF subs (firstId + files.length))
/-- Expected parse of a forest. -/
def pdirF : FsForest → Nat → List (List Nat × PDir)
  | .fnil, _ => []
  | .fcons n t rest, nextFile => (n, pdirT t nextFile) :: pdirF rest (nextFile + countFiles t)
end

mutual
/-- Directory-nesting depth of a tree. -/
def depthT : FsTree → Nat
  | .node _ subs => 1 + depthF subs
/-- Directory-nesting depth of a forest. -/
def depthF : FsForest → Nat
  | .fnil => 0
  | .fcons _ t rest => max (depthT t) (depthF rest)
end

end RomExtractor

namespace RomExtractor

open RomAssembler FileTable

theorem readU16_drop (l : List Nat) (off : Nat) :
    readU16 l off = readU16 (l.drop off) 0 := by
  unfold readU16
  rw [List.getElem?_drop, List.getElem?_drop]
  norm_num

theorem readU32_drop (l : List Nat) (off : Nat) :
    readU32 l off = readU32 (l.drop off) 0 := by
  unfold readU32
  rw [List.getElem?_drop, List.getElem?_drop, List.getElem?_drop, List.getElem?_drop]
  norm_num

theorem readU16_here (v : Nat) (rest : List Nat) (h : v < 65536) :
    readU16 (u16b v ++ rest) 0 = some v := by
  unfold readU16 u16b
  simp only [List.cons_append, List.getElem?_cons_zero, List.getElem?_cons_succ]
  congr 1
  omega

theorem readU32_here (v : Nat) (rest : List Nat) (h : v < 4294967296) :
    readU32 (u32b v ++ rest) 0 = some v := by
  unfold readU32 u32b
  simp only [List.cons_append, List.getElem?_cons_zero, List.getElem?_cons_succ,
    List.getElem?_cons]
  norm_num
  omega

theorem drop_append_left {l1 l2 : List Nat} (k : Nat) (h : l1.length = k) :
    (l1 ++ l2).drop k = l2 :=
  List.drop_left' h

end RomExtractor

namespace RomExtractor

open RomAssembler FileTable

theorem drop_at (fnt : List Nat) (off k : Nat) :
    (fnt.drop off).drop k = fnt.drop (off + k) := by
  rw [List.drop_drop]

theorem byte_at (fnt : List Nat) (off : Nat) (b : Nat) (X : List Nat)
    (h : fnt.drop off = b :: X) : fnt[off]? = some b := by
  have h0 : (fnt.drop off)[0]? = some b := by rw [h]; simp
  rw [List.getElem?_drop] at h0
  simpa using h0

theorem drop_len_ge (fnt : List Nat) (off : Nat) (X : List Nat)
    (h : fnt.drop off = X) : X.length + off ≤ fnt.length ∨ fnt.length ≤ off := by
  have := congrArg List.length h
  rw [List.length_drop] at this
  omega

theorem parseSubtable_step_end (fnt : List Nat) (off fuel : Nat) (X : List Nat)
    (hdrop : fnt.drop off = 0 :: X) :
    parseSubtable fnt (fuel + 1) off = Except.ok [] := by
  simp [parseSubtable, byte_at fnt off 0 X hdrop]

theorem parseSubtable_step_file (fnt : List Nat) (off fuel : Nat) (n : List Nat) (X : List Nat)
    (hdrop : fnt.drop off = n.length :: (n ++ X))
    (h1 : 1 ≤ n.length) (h127 : n.length ≤ 127) :
    parseSubtable fnt (fuel + 1) off =
      (match parseSubtable fnt fuel (off + 1 + n.length) with
       | .ok rest => .ok (.fileEntry n :: rest)
       | .error e => .error e) := by
  have hlen := drop_len_ge fnt off _ hdrop
  simp only [List.length_cons, List.length_append] at hlen
  have hoff : off < fnt.length := by
    rcases hlen with h | h
    · omega
    · exfalso
      have : fnt.drop off = [] := List.drop_eq_nil_of_le h
      rw [this] at hdrop
      cases hdrop
  simp only [parseSubtable, byte_at fnt off n.length (n ++ X) hdrop]
  rw [if_neg (show ¬ n.length = 0 from by omega), if_pos h127,
    if_pos (show off + 1 + n.length ≤ fnt.length from by omega)]
  have hname : (fnt.drop (off + 1)).take n.length = n := by
    rw [← drop_at, hdrop]
    simp only [List.drop_succ_cons, List.drop_zero]
    exact List.take_left' rfl
  rw [hname]

theorem parseSubtable_step_dir (fnt : List Nat) (off fuel : Nat) (n : List Nat) (cid : Nat)
    (X : List Nat)
    (hdrop : fnt.drop off = (128 + n.length) :: (n ++ u16b cid ++ X))
    (h127 : n.length ≤ 127) (hcid : cid < 65536) :
    parseSubtable fnt (fuel + 1) off =
      (match parseSubtable fnt fuel (off + 1 + n.length + 2) with
       | .ok rest => .ok (.dirEntry n cid :: rest)
       | .error e => .error e) := by
  have hlen := drop_len_ge fnt off _ hdrop
  simp only [List.length_cons, List.length_append, u16b] at hlen
  have hoff : off < fnt.length := by
    rcases hlen with h | h
    · omega
    · exfalso
      have : fnt.drop off = [] := List.drop_eq_nil_of_le h
      rw [this] at hdrop
      cases hdrop
  have hlen2 : n.length + 2 + X.length + 1 + off ≤ fnt.length := by
    rcases hlen with h | h
    · omega
    · omega
  have hdr2 : fnt.drop (off + (1 + n.length)) = u16b cid ++ X := by
    rw [← drop_at, hdrop]
    rw [show 1 + n.length = n.length + 1 from by omega]
    simp only [List.drop_succ_cons]
    rw [List.append_assoc]
    exact List.drop_left' rfl
  have hname : (fnt.drop (off + 1)).take n.length = n := by
    rw [← drop_at, hdrop]
    simp only [List.drop_succ_cons, List.drop_zero]
    rw [List.append_assoc]
    exact List.take_left' rfl
  have hr16 : readU16 fnt (off + 1 + n.length) = some cid := by
    rw [show off + 1 + n.length = off + (1 + n.length) from by omega, readU16_drop, hdr2]
    exact readU16_here cid X hcid
  simp only [parseSubtable, byte_at fnt off (128 + n.length) _ hdrop]
  rw [if_neg (show ¬ 128 + n.length = 0 from by omega),
    if_neg (show ¬ 128 + n.length ≤ 127 from by omega)]
  have hnl : 128 + n.length - 128 = n.length := by omega
  rw [hnl]
  rw [if_pos (show off + 1 + n.length + 2 ≤ fnt.length from by omega)]
  rw [hr16, hname]

end RomExtractor

namespace RomExtractor

open RomAssembler FileTable

theorem parseSubtable_ser_kids (fnt : List Nat) :
    ∀ (kids : List (List Nat × Nat)) (off fuel : Nat) (tail : List Nat),
      fnt.drop off = cat (kids.map dirEntBytes) ++ 0 :: tail →
      (∀ k ∈ kids, k.1.length ≤ 127 ∧ k.2 < 65536) →
      kids.length < fuel →
      parseSubtable fnt fuel off
        = Except.ok (kids.map (fun k => SubEntry.dirEntry k.1 k.2)) := by
  intro kids
  induction kids with
  | nil =>
    intro off fuel tail hdrop hk hfuel
    rcases fuel with _ | f
    · omega
    · simpa using parseSubtable_step_end fnt off f tail (by simpa [cat] using hdrop)
  | cons k rest ih =>
    intro off fuel tail hdrop hk hfuel
    rcases fuel with _ | f
    · omega
    obtain ⟨n, cid⟩ := k
    have hk0 := hk (n, cid) (by simp)
    have hdrop2 : fnt.drop off
        = (128 + n.length) :: (n ++ u16b cid ++ (cat (rest.map dirEntBytes) ++ 0 :: tail)) := by
      rw [hdrop]
      simp [cat, dirEntBytes, List.append_assoc]
    rw [parseSubtable_step_dir fnt off f n cid _ hdrop2 hk0.1 hk0.2]
    have hdroprest : fnt.drop (off + 1 + n.length + 2)
        = cat (rest.map dirEntBytes) ++ 0 :: tail := by
      rw [show off + 1 + n.length + 2 = off + (1 + n.length + 2) from by omega, ← drop_at,
        hdrop2]
      rw [show 1 + n.length + 2 = (n.length + 2) + 1 from by omega]
      simp only [List.drop_succ_cons]
      rw [show n ++ u16b cid ++ (cat (rest.map dirEntBytes) ++ 0 :: tail)
          = (n ++ u16b cid) ++ (cat (rest.map dirEntBytes) ++ 0 :: tail) from by
        rw [List.append_assoc]]
      apply List.drop_left'
      simp [u16b]
    rw [ih (off + 1 + n.length + 2) f tail hdroprest
      (fun k hmem => hk k (by simp [hmem])) (by simp at hfuel; omega)]
    rfl

end RomExtractor

namespace RomExtractor

open RomAssembler FileTable

theorem parseSubtable_ser (fnt : List Nat) :
    ∀ (files : List (List Nat × List Nat)) (kids : List (List Nat × Nat)) (off fuel : Nat)
      (tail : List Nat),
      fnt.drop off = cat (files.map fileEntBytes) ++ cat (kids.map dirEntBytes) ++ 0 :: tail →
      (∀ f ∈ files, 1 ≤ f.1.length ∧ f.1.length ≤ 127) →
      (∀ k ∈ kids, k.1.length ≤ 127 ∧ k.2 < 65536) →
      files.length + kids.length < fuel →
      parseSubtable fnt fuel off
        = Except.ok (files.map (fun f => SubEntry.fileEntry f.1)
            ++ kids.map (fun k => SubEntry.dirEntry k.1 k.2)) := by
  intro files
  induction files with
  | nil =>
    intro kids off fuel tail hdrop hf hk hfuel
    rw [show (cat (List.map fileEntBytes []) : List Nat) = [] from rfl] at hdrop
    rw [List.nil_append] at hdrop
    rw [parseSubtable_ser_kids fnt kids off fuel tail hdrop hk (by simpa using hfuel)]
    simp
  | cons fe rest ih =>
    intro kids off fuel tail hdrop hf hk hfuel
    rcases fuel with _ | f
    · omega
    obtain ⟨n, c⟩ := fe
    have hf0 := hf (n, c) (by simp)
    have hdrop2 : fnt.drop off
        = n.length :: (n ++ (cat (rest.map fileEntBytes)
            ++ cat (kids.map dirEntBytes) ++ 0 :: tail)) := by
      rw [hdrop]
      simp [cat, fileEntBytes, List.append_assoc]
    rw [parseSubtable_step_file fnt off f n _ hdrop2 hf0.1 hf0.2]
    have hdroprest : fnt.drop (off + 1 + n.length)
        = cat (rest.map fileEntBytes) ++ cat (kids.map dirEntBytes) ++ 0 :: tail := by
      rw [show off + 1 + n.length = off + (1 + n.length) from by omega, ← drop_at, hdrop2]
      rw [show 1 + n.length = n.length + 1 from by omega]
      simp only [List.drop_succ_cons]
      exact List.drop_left' rfl
    rw [ih kids (off + 1 + n.length) f tail hdroprest
      (fun g hmem => hf g (by simp [hmem])) hk (by simp at hfuel; omega)]
    rfl

end RomExtractor

namespace RomExtractor

open RomAssembler FileTable

/-- Total subtable bytes of an arena prefix. -/
def sumSub : List FlatRec → Nat
  | [] => 0
  | r :: rest => subSize r + sumSub rest

/-- Region offset of the `j`-th directory's subtable. -/
def subOffAt (A : List FlatRec) (j : Nat) : Nat :=
  8 * A.length + sumSub (A.take j)

theorem u32b_length (v : Nat) : (u32b v).length = 4 := rfl

theorem u16b_length (v : Nat) : (u16b v).length = 2 := rfl

theorem recsGo_length (rest : List FlatRec) : ∀ off, (recsGo rest off).length = 8 * rest.length := by
  induction rest with
  | nil => intro off; rfl
  | cons r rs ih =>
    intro off
    simp only [recsGo, List.length_append, u32b_length, u16b_length, ih, List.length_cons]
    omega

theorem sumSub_take_le (A : List FlatRec) : ∀ j, sumSub (A.take j) ≤ sumSub A := by
  induction A with
  | nil => intro j; simp
  | cons r rs ih =>
    intro j
    rcases j with _ | j
    · simp [sumSub]
    · simp only [List.take_succ_cons, sumSub]
      have := ih j
      omega

theorem fileNames_ser (fs : List (List Nat × List Nat)) (ks : List (List Nat × Nat)) :
    fileNames (fs.map (fun f => SubEntry.fileEntry f.1)
      ++ ks.map (fun k => SubEntry.dirEntry k.1 k.2)) = fs.map Prod.fst := by
  induction fs with
  | nil =>
    induction ks with
    | nil => rfl
    | cons k kr ihk => simpa [fileNames] using ihk
  | cons n nr ihn => simpa [fileNames] using ihn

theorem dirRefs_ser (fs : List (List Nat × List Nat)) (ks : List (List Nat × Nat)) :
    dirRefs (fs.map (fun f => SubEntry.fileEntry f.1)
      ++ ks.map (fun k => SubEntry.dirEntry k.1 k.2)) = ks := by
  induction fs with
  | nil =>
    induction ks with
    | nil => rfl
    | cons k kr ihk => simpa [dirRefs] using ihk
  | cons n nr ihn => simpa [dirRefs] using ihn

theorem cat_map_drop (A : List FlatRec) :
    ∀ (j : Nat) (hj : j < A.length),
      (cat (A.map subBytes)).drop (sumSub (A.take j))
        = subBytes (A.get ⟨j, hj⟩) ++ cat ((A.drop (j + 1)).map subBytes) := by
  induction A with
  | nil => intro j hj; simp at hj
  | cons r rs ih =>
    intro j hj
    rcases j with _ | j
    · simp [sumSub, cat]
    · simp only [List.take_succ_cons, sumSub, List.map_cons, cat, List.get_cons_succ]
      rw [show subSize r + sumSub (rs.take j) = subSize r + sumSub (rs.take j) from rfl]
      rw [List.drop_append_eq_append_drop]
      have hsz : (subBytes r).length = subSize r := rfl
      rw [hsz]
      rw [show subSize r + sumSub (rs.take j) - subSize r = sumSub (rs.take j) from by omega]
      rw [List.drop_eq_nil_of_le (by omega)]
      rw [List.nil_append]
      simp only [List.length_cons] at hj
      rw [ih j (by omega)]
      rfl

end RomExtractor

namespace RomExtractor

open RomAssembler FileTable

theorem readU32_shift (l : List Nat) (m k : Nat) :
    readU32 l (m + k) = readU32 (l.drop m) k := by
  rw [readU32_drop, readU32_drop (l.drop m), drop_at]

theorem readU16_shift (l : List Nat) (m k : Nat) :
    readU16 l (m + k) = readU16 (l.drop m) k := by
  rw [readU16_drop, readU16_drop (l.drop m), drop_at]

theorem cat_map_length (A : List FlatRec) : (cat (A.map subBytes)).length = sumSub A := by
  induction A with
  | nil => rfl
  | cons r rs ih =>
    simp only [List.map_cons, cat, List.length_append, ih, sumSub]
    rfl

theorem recsGo_read (rest : List FlatRec) :
    ∀ (j : Nat) (hj : j < rest.length) (off : Nat) (tail : List Nat),
      off + sumSub (rest.take j) < 4294967296 →
      (rest.get ⟨j, hj⟩).firstId < 65536 →
      readU32 (recsGo rest off ++ tail) (8 * j) = some (off + sumSub (rest.take j)) ∧
      readU16 (recsGo rest off ++ tail) (8 * j + 4) = some (rest.get ⟨j, hj⟩).firstId := by
  induction rest with
  | nil => intro j hj; simp at hj
  | cons r rs ih =>
    intro j hj off tail hb32 hb16
    rcases j with _ | j
    · have hz : off + sumSub ((r :: rs).take 0) = off := by
        simp [sumSub]
      constructor
      · rw [show (8 * 0 : Nat) = 0 from rfl, hz]
        rw [show recsGo (r :: rs) off ++ tail
            = u32b off ++ (u16b r.firstId ++ u16b r.parent
              ++ recsGo rs (off + subSize r) ++ tail) from by
          simp [recsGo, List.append_assoc]]
        exact readU32_here off _ (by omega)
      · rw [show (8 * 0 + 4 : Nat) = 4 + 0 from rfl, readU16_shift]
        rw [show recsGo (r :: rs) off ++ tail
            = u32b off ++ (u16b r.firstId ++ (u16b r.parent
              ++ recsGo rs (off + subSize r) ++ tail)) from by
          simp [recsGo, List.append_assoc]]
        rw [drop_append_left 4 (u32b_length off)]
        exact readU16_here _ _ (by simpa using hb16)
    · have hdrop8 : (recsGo (r :: rs) off ++ tail).drop 8
          = recsGo rs (off + subSize r) ++ tail := by
        rw [show recsGo (r :: rs) off ++ tail
            = (u32b off ++ u16b r.firstId ++ u16b r.parent)
              ++ (recsGo rs (off + subSize r) ++ tail) from by
          simp [recsGo, List.append_assoc]]
        exact drop_append_left 8 (by simp [u32b, u16b])
      have harith : off + sumSub ((r :: rs).take (j + 1))
          = (off + subSize r) + sumSub (rs.take j) := by
        simp only [List.take_succ_cons, sumSub]
        omega
      have hj2 : j < rs.length := by simpa using hj
      have hres := ih j hj2 (off + subSize r) tail (by omega) (by simpa using hb16)
      constructor
      · rw [show 8 * (j + 1) = 8 + 8 * j from by omega, readU32_shift, hdrop8, harith]
        exact hres.1
      · rw [show 8 * (j + 1) + 4 = 8 + (8 * j + 4) from by omega, readU16_shift, hdrop8]
        simpa using hres.2

end RomExtractor

namespace RomExtractor

open RomAssembler FileTable

theorem fntBytes_structure (A : List FlatRec) (dc : Nat) (r0 : FlatRec) (rest : List FlatRec)
    (hA : A = r0 :: rest) :
    fntBytes A dc
      = (u32b (8 * (rest.length + 1)) ++ u16b r0.firstId ++ u16b dc
          ++ recsGo rest (8 * (rest.length + 1) + subSize r0)) ++ cat (A.map subBytes) := by
  subst hA
  rfl

theorem fntBytes_records_length (A : List FlatRec) (dc : Nat) (r0 : FlatRec)
    (rest : List FlatRec) (hA : A = r0 :: rest) :
    (u32b (8 * (rest.length + 1)) ++ u16b r0.firstId ++ u16b dc
        ++ recsGo rest (8 * (rest.length + 1) + subSize r0)).length = 8 * A.length := by
  subst hA
  simp [u32b, u16b, recsGo_length]
  omega

theorem fntBytes_length (A : List FlatRec) (dc : Nat) :
    (fntBytes A dc).length = 8 * A.length + sumSub A := by
  rcases A with _ | ⟨r0, rest⟩
  · rfl
  · rw [fntBytes_structure _ dc r0 rest rfl, List.length_append,
      fntBytes_records_length _ dc r0 rest rfl, cat_map_length]

theorem fnt_read_dc (A : List FlatRec) (dc : Nat) (r0 : FlatRec) (rest : List FlatRec)
    (hA : A = r0 :: rest) (hdc : dc < 65536) :
    readU16 (fntBytes A dc) 6 = some dc := by
  rw [fntBytes_structure A dc r0 rest hA]
  rw [show (6 : Nat) = 6 + 0 from rfl, readU16_shift]
  rw [show (u32b (8 * (rest.length + 1)) ++ u16b r0.firstId ++ u16b dc
        ++ recsGo rest (8 * (rest.length + 1) + subSize r0)) ++ cat (A.map subBytes)
      = (u32b (8 * (rest.length + 1)) ++ u16b r0.firstId)
        ++ (u16b dc ++ (recsGo rest (8 * (rest.length + 1) + subSize r0)
          ++ cat (A.map subBytes))) from by
    simp [List.append_assoc]]
  rw [drop_append_left 6 (by simp [u32b, u16b])]
  exact readU16_here dc _ hdc

theorem fnt_read_rec (A : List FlatRec) (dc : Nat) :
    ∀ (j : Nat) (hj : j < A.length),
      subOffAt A j < 4294967296 →
      (A.get ⟨j, hj⟩).firstId < 65536 →
      readU32 (fntBytes A dc) (8 * j) = some (subOffAt A j) ∧
      readU16 (fntBytes A dc) (8 * j + 4) = some (A.get ⟨j, hj⟩).firstId := by
  intro j hj hb32 hb16
  rcases A with _ | ⟨r0, rest⟩
  · simp at hj
  rcases j with _ | j
  · have hsub : subOffAt (r0 :: rest) 0 = 8 * (rest.length + 1) := by
      simp [subOffAt, sumSub]
    constructor
    · rw [fntBytes_structure _ dc r0 rest rfl]
      rw [show (8 * 0 : Nat) = 0 from rfl, hsub]
      rw [show (u32b (8 * (rest.length + 1)) ++ u16b r0.firstId ++ u16b dc
            ++ recsGo rest (8 * (rest.length + 1) + subSize r0)) ++ cat ((r0 :: rest).map subBytes)
          = u32b (8 * (rest.length + 1)) ++ (u16b r0.firstId ++ u16b dc
            ++ recsGo rest (8 * (rest.length + 1) + subSize r0) ++ cat ((r0 :: rest).map subBytes))
          from by simp [List.append_assoc]]
      exact readU32_here _ _ (by rw [← hsub]; exact hb32)
    · rw [fntBytes_structure _ dc r0 rest rfl]
      rw [show (8 * 0 + 4 : Nat) = 4 + 0 from rfl, readU16_shift]
      rw [show (u32b (8 * (rest.length + 1)) ++ u16b r0.firstId ++ u16b dc
            ++ recsGo rest (8 * (rest.length + 1) + subSize r0)) ++ cat ((r0 :: rest).map subBytes)
          = u32b (8 * (rest.length + 1)) ++ (u16b r0.firstId ++ (u16b dc
            ++ recsGo rest (8 * (rest.length + 1) + subSize r0) ++ cat ((r0 :: rest).map subBytes)))
          from by simp [List.append_assoc]]
      rw [drop_append_left 4 (u32b_length _)]
      exact readU16_here _ _ (by simpa using hb16)
  · have hdrop8 : (fntBytes (r0 :: rest) dc).drop 8
        = recsGo rest (8 * (rest.length + 1) + subSize r0) ++ cat ((r0 :: rest).map subBytes) := by
      rw [fntBytes_structure _ dc r0 rest rfl]
      rw [show (u32b (8 * (rest.length + 1)) ++ u16b r0.firstId ++ u16b dc
            ++ recsGo rest (8 * (rest.length + 1) + subSize r0)) ++ cat ((r0 :: rest).map subBytes)
          = (u32b (8 * (rest.length + 1)) ++ u16b r0.firstId ++ u16b dc)
            ++ (recsGo rest (8 * (rest.length + 1) + subSize r0)
              ++ cat ((r0 :: rest).map subBytes)) from by simp [List.append_assoc]]
      exact drop_append_left 8 (by simp [u32b, u16b])
    have hj2 : j < rest.length := by simpa using hj
    have harith : subOffAt (r0 :: rest) (j + 1)
        = (8 * (rest.length + 1) + subSize r0) + sumSub (rest.take j) := by
      simp only [subOffAt, List.take_succ_cons, sumSub, List.length_cons]
      omega
    have hres := recsGo_read rest j hj2 (8 * (rest.length + 1) + subSize r0)
      (cat ((r0 :: rest).map subBytes)) (by rw [← harith]; exact hb32) (by simpa using hb16)
    constructor
    · rw [show 8 * (j + 1) = 8 + 8 * j from by omega, readU32_shift, hdrop8, harith]
      exact hres.1
    · rw [show 8 * (j + 1) + 4 = 8 + (8 * j + 4) from by omega, readU16_shift, hdrop8]
      simpa using hres.2

theorem fnt_drop_suboff (A : List FlatRec) (dc : Nat) :
    ∀ (j : Nat) (hj : j < A.length),
      (fntBytes A dc).drop (subOffAt A j)
        = subBytes (A.get ⟨j, hj⟩) ++ cat ((A.drop (j + 1)).map subBytes) := by
  intro j hj
  rcases A with _ | ⟨r0, rest⟩
  · simp at hj
  rw [fntBytes_structure _ dc r0 rest rfl]
  rw [List.drop_append_eq_append_drop]
  rw [fntBytes_records_length _ dc r0 rest rfl]
  rw [List.drop_eq_nil_of_le (by
    rw [fntBytes_records_length _ dc r0 rest rfl]
    simp [subOffAt])]
  rw [List.nil_append]
  rw [show subOffAt (r0 :: rest) j - 8 * (r0 :: rest).length
      = sumSub ((r0 :: rest).take j) from by simp [subOffAt]]
  exact cat_map_drop (r0 :: rest) j hj

end RomExtractor

namespace RomExtractor

open RomAssembler FileTable

mutual
theorem flatT_length (t : FsTree) : ∀ (m p f : Nat), (flatT t m p f).length = countDirs t := by
  rcases t with ⟨files, subs⟩
  intro m p f
  simp only [flatT, List.length_cons, countDirs]
  rw [flatF_length subs]
  omega
theorem flatF_length (s : FsForest) :
    ∀ (m p f : Nat), (flatF s m p f).length = countDirsF s := by
  rcases s with _ | ⟨n, t, rest⟩
  · intro m p f
    rfl
  · intro m p f
    simp only [flatF, List.length_append, countDirsF]
    rw [flatT_length t, flatF_length rest]
end

theorem countDirs_pos (t : FsTree) : 1 ≤ countDirs t := by
  rcases t with ⟨files, subs⟩
  simp only [countDirs]
  omega

theorem kidRefs_bounds (s : FsForest) :
    ∀ (nid : Nat) (q : List Nat × Nat), q ∈ kidRefs s nid →
      nid ≤ q.2 ∧ q.2 < nid + countDirsF s := by
  rcases s with _ | ⟨n, t, rest⟩
  · intro nid q hq
    simp [kidRefs] at hq
  · intro nid q hq
    simp only [kidRefs, List.mem_cons] at hq
    rcases hq with rfl | hq
    · have := countDirs_pos t
      simp only [countDirsF]
      omega
    · have := kidRefs_bounds rest (nid + countDirs t) q hq
      simp only [countDirsF]
      omega

theorem kidRefs_names (s : FsForest) (hv : validF s = true) :
    ∀ (nid : Nat) (q : List Nat × Nat), q ∈ kidRefs s nid →
      1 ≤ q.1.length ∧ q.1.length ≤ 127 := by
  rcases s with _ | ⟨n, t, rest⟩
  · intro nid q hq
    simp [kidRefs] at hq
  · simp only [validF, Bool.and_eq_true, decide_eq_true_eq] at hv
    intro nid q hq
    simp only [kidRefs, List.mem_cons] at hq
    rcases hq with rfl | hq
    · exact hv.1.1
    · exact kidRefs_names rest hv.2 (nid + countDirs t) q hq

theorem cat_map_len_ge_file (ns : List (List Nat × List Nat)) :
    ns.length ≤ (cat (ns.map fileEntBytes)).length := by
  induction ns with
  | nil => simp [cat]
  | cons n rest ih =>
    simp only [List.map_cons, cat, List.length_append, fileEntBytes, List.length_cons]
    omega

theorem cat_map_len_ge_dir (ks : List (List Nat × Nat)) :
    ks.length ≤ (cat (ks.map dirEntBytes)).length := by
  induction ks with
  | nil => simp [cat]
  | cons k rest ih =>
    simp only [List.map_cons, cat, List.length_append, dirEntBytes, List.length_cons]
    omega

end RomExtractor
namespace RomExtractor

open RomAssembler FileTable

mutual
/-- Parsing the serialized arena at a tree's record reproduces the expected
parse of that tree, extending the visited set by exactly the tree's
directory-id range. -/
theorem parseT_ok (A : List FlatRec)
    (hR32 : 8 * A.length + sumSub A < 4294967296) (hA4096 : A.length ≤ 4096) :
    ∀ (t : FsTree) (fuel myId parent firstId : Nat) (visited : List Nat)
      (pre post : List FlatRec),
      A = pre ++ flatT t myId parent firstId ++ post →
      pre.length + 61440 = myId →
      validT t = true →
      (∀ i ∈ visited, i ≤ myId ∨ myId + countDirs t ≤ i) →
      depthT t ≤ fuel →
      firstId + countFiles t < 65536 →
      ∃ vout, parseDir (fntBytes A A.length) A.length fuel myId visited
          = Except.ok (pdirT t firstId, vout) ∧
        ∀ i, i ∈ vout ↔ i ∈ visited ∨ (myId + 1 ≤ i ∧ i < myId + countDirs t) := by
  intro t
  rcases t with ⟨files, subs⟩
  intro fuel myId parent firstId visited pre post hemb hpre hvalid hvis hfuel hfid
  rcases fuel with _ | f
  · exfalso
    simp only [depthT] at hfuel
    omega
  simp only [validT, Bool.and_eq_true] at hvalid
  simp only [depthT] at hfuel
  simp only [countDirs] at hvis hfid ⊢
  simp only [countFiles] at hfid
  have hA : A = pre ++ (FlatRec.mk files (kidRefs subs (myId + 1)) parent firstId
      :: flatF subs (myId + 1) myId (firstId + files.length)) ++ post := by
    rw [hemb]
    simp only [flatT]
  have hj : pre.length < A.length := by
    rw [hA]
    simp
  have hget : A.get ⟨pre.length, hj⟩
      = FlatRec.mk files (kidRefs subs (myId + 1)) parent firstId := by
    have h1 : A[pre.length]?
        = some (FlatRec.mk files (kidRefs subs (myId + 1)) parent firstId) := by
      rw [hA, List.append_assoc, List.getElem?_append_right (le_refl pre.length)]
      simp
    have h2 : A[pre.length]? = some (A.get ⟨pre.length, hj⟩) := by
      rw [List.getElem?_eq_getElem hj, List.get_eq_getElem]
    exact Option.some.inj (h2.symm.trans h1)
  have hsub32 : subOffAt A pre.length < 4294967296 := by
    have := sumSub_take_le A pre.length
    simp only [subOffAt]
    omega
  have hfid16 : (A.get ⟨pre.length, hj⟩).firstId < 65536 := by
    rw [hget]
    exact (by omega : firstId < 65536)
  have hreads := fnt_read_rec A A.length pre.length hj hsub32 hfid16
  have hfe : (A.get ⟨pre.length, hj⟩).firstId = firstId := by
    rw [hget]
  have hread1 : readU32 (fntBytes A A.length) ((myId - 61440) * 8)
      = some (subOffAt A pre.length) := by
    rw [show (myId - 61440) * 8 = 8 * pre.length from by omega]
    exact hreads.1
  have hread2 : readU16 (fntBytes A A.length) ((myId - 61440) * 8 + 4) = some firstId := by
    rw [show (myId - 61440) * 8 + 4 = 8 * pre.length + 4 from by omega]
    rw [hreads.2, hfe]
  have hdropsub : (fntBytes A A.length).drop (subOffAt A pre.length)
      = cat (files.map fileEntBytes)
        ++ cat ((kidRefs subs (myId + 1)).map dirEntBytes)
        ++ 0 :: cat ((A.drop (pre.length + 1)).map subBytes) := by
    rw [fnt_drop_suboff A A.length pre.length hj, hget]
    simp [subBytes, List.append_assoc]
  have hsublen : files.length + (kidRefs subs (myId + 1)).length
      < (fntBytes A A.length).length + 1 := by
    have hlenEq := congrArg List.length hdropsub
    simp only [List.length_drop, List.length_append, List.length_cons] at hlenEq
    have h1 := cat_map_len_ge_file files
    have h2 := cat_map_len_ge_dir (kidRefs subs (myId + 1))
    omega
  have hnames : ∀ f ∈ files, 1 ≤ f.1.length ∧ f.1.length ≤ 127 := by
    intro f hf
    have h := hvalid.1
    rw [List.all_eq_true] at h
    have := h f hf
    simpa using this
  have hAlen : pre.length + (1 + countDirsF subs) ≤ A.length := by
    rw [hA]
    simp only [List.length_append, List.length_cons]
    rw [flatF_length]
    omega
  have hkbounds : ∀ k ∈ kidRefs subs (myId + 1), k.1.length ≤ 127 ∧ k.2 < 65536 := by
    intro k hk
    refine ⟨(kidRefs_names subs hvalid.2 (myId + 1) k hk).2, ?_⟩
    have hb := kidRefs_bounds subs (myId + 1) k hk
    omega
  have hsubeq : parseSubtable (fntBytes A A.length) ((fntBytes A A.length).length + 1)
        (subOffAt A pre.length)
      = Except.ok (files.map (fun f => SubEntry.fileEntry f.1)
          ++ (kidRefs subs (myId + 1)).map (fun k => SubEntry.dirEntry k.1 k.2)) :=
    parseSubtable_ser _ files (kidRefs subs (myId + 1)) _ _
      (cat ((A.drop (pre.length + 1)).map subBytes)) hdropsub hnames hkbounds hsublen
  have hembF : A = (pre ++ [FlatRec.mk files (kidRefs subs (myId + 1)) parent firstId])
      ++ flatF subs (myId + 1) myId (firstId + files.length) ++ post := by
    rw [hA]
    simp [List.append_assoc]
  have hpreF : (pre ++ [FlatRec.mk files (kidRefs subs (myId + 1)) parent firstId]).length
      + 61440 = myId + 1 := by
    simp only [List.length_append, List.length_cons, List.length_nil]
    omega
  obtain ⟨vout, hpc, hmem⟩ := parseF_ok A hR32 hA4096 subs f (myId + 1) myId
    (firstId + files.length) visited
    (pre ++ [FlatRec.mk files (kidRefs subs (myId + 1)) parent firstId]) post
    hembF hpreF hvalid.2
    (by
      intro i hi
      rcases hvis i hi with h | h
      · exact Or.inl (by omega)
      · exact Or.inr (by omega))
    (by omega) (by omega)
  refine ⟨vout, ?_, ?_⟩
  · simp only [parseDir, hread1, hread2, hsubeq, dirRefs_ser, hpc, fileNames_ser, pdirT]
  · intro i
    rw [hmem i]
    rw [show myId + 1 + countDirsF subs = myId + (1 + countDirsF subs) from by omega]

/-- Parsing the children of a forest in the serialized arena reproduces the
expected parse of that forest, extending the visited set by exactly the
forest's directory-id range. -/
theorem parseF_ok (A : List FlatRec)
    (hR32 : 8 * A.length + sumSub A < 4294967296) (hA4096 : A.length ≤ 4096) :
    ∀ (s : FsForest) (fuel nextId parent nextFile : Nat) (visited : List Nat)
      (pre post : List FlatRec),
      A = pre ++ flatF s nextId parent nextFile ++ post →
      pre.length + 61440 = nextId →
      validF s = true →
      (∀ i ∈ visited, i < nextId ∨ nextId + countDirsF s ≤ i) →
      depthF s ≤ fuel →
      nextFile + countFilesF s < 65536 →
      ∃ vout, parseChildrenWith (parseDir (fntBytes A A.length) A.length fuel) A.length
          (kidRefs s nextId) visited = Except.ok (pdirF s nextFile, vout) ∧
        ∀ i, i ∈ vout ↔ i ∈ visited ∨ (nextId ≤ i ∧ i < nextId + countDirsF s) := by
  intro s
  rcases s with _ | ⟨n, t, rest⟩
  · intro fuel nextId parent nextFile visited pre post hemb hpre hvalid hvis hfuel hfid
    refine ⟨visited, ?_, ?_⟩
    · simp [kidRefs, parseChildrenWith, pdirF]
    · intro i
      simp only [countDirsF, Nat.add_zero]
      constructor
      · exact Or.inl
      · rintro (h | ⟨h1, h2⟩)
        · exact h
        · omega
  · intro fuel nextId parent nextFile visited pre post hemb hpre hvalid hvis hfuel hfid
    simp only [validF, Bool.and_eq_true, decide_eq_true_eq] at hvalid
    simp only [flatF] at hemb
    simp only [countDirsF] at hvis hfid ⊢
    simp only [depthF] at hfuel
    simp only [countFilesF] at hfid
    have hnd := countDirs_pos t
    have hnextNot : nextId ∉ visited := by
      intro hmem
      rcases hvis nextId hmem with h | h
      · omega
      · omega
    have hAlen : pre.length + countDirs t + countDirsF rest + post.length = A.length := by
      rw [hemb]
      simp only [List.length_append]
      rw [flatT_length, flatF_length]
      omega
    have hrange : ¬ (nextId < 61440 ∨ 61440 + A.length ≤ nextId) := by omega
    have hembT : A = pre ++ flatT t nextId parent nextFile
        ++ (flatF rest (nextId + countDirs t) parent (nextFile + countFiles t) ++ post) := by
      rw [hemb]
      simp [List.append_assoc]
    obtain ⟨v1, hpd, hmem1⟩ := parseT_ok A hR32 hA4096 t fuel nextId parent nextFile
      (nextId :: visited) pre
      (flatF rest (nextId + countDirs t) parent (nextFile + countFiles t) ++ post)
      hembT hpre hvalid.1.2
      (by
        intro i hi
        rcases List.mem_cons.mp hi with rfl | hi2
        · exact Or.inl (le_refl i)
        · rcases hvis i hi2 with h | h
          · exact Or.inl (by omega)
          · exact Or.inr (by omega))
      (by omega) (by omega)
    have hpre2 : (pre ++ flatT t nextId parent nextFile).length + 61440
        = nextId + countDirs t := by
      simp only [List.length_append]
      rw [flatT_length]
      omega
    have hembR : A = (pre ++ flatT t nextId parent nextFile)
        ++ flatF rest (nextId + countDirs t) parent (nextFile + countFiles t) ++ post := by
      rw [hemb]
      simp [List.append_assoc]
    obtain ⟨v2, hpc, hmem2⟩ := parseF_ok A hR32 hA4096 rest fuel (nextId + countDirs t) parent
      (nextFile + countFiles t) v1 (pre ++ flatT t nextId parent nextFile) post
      hembR hpre2 hvalid.2
      (by
        intro i hi
        rcases (hmem1 i).mp hi with hi2 | ⟨h1, h2⟩
        · rcases List.mem_cons.mp hi2 with rfl | hi3
          · exact Or.inl (by omega)
          · rcases hvis i hi3 with h | h
            · exact Or.inl (by omega)
            · exact Or.inr (by omega)
        · exact Or.inl (by omega))
      (by omega) (by omega)
    refine ⟨v2, ?_, ?_⟩
    · simp only [kidRefs, parseChildrenWith, if_neg hnextNot, if_neg hrange, hpd, hpc, pdirF]
    · intro i
      rw [hmem2 i, hmem1 i]
      constructor
      · rintro ((hv | ⟨h1, h2⟩) | ⟨h1, h2⟩)
        · rcases List.mem_cons.mp hv with rfl | hv2
          · exact Or.inr (by omega)
          · exact Or.inl hv2
        · exact Or.inr (by omega)
        · exact Or.inr (by omega)
      · rintro (hv | ⟨h1, h2⟩)
        · exact Or.inl (Or.inl (List.mem_cons_of_mem _ hv))
        · by_cases hlt : i < nextId + countDirs t
          · rcases Nat.eq_or_lt_of_le h1 with heq | hgt
            · exact Or.inl (Or.inl (by rw [← heq]; exact List.mem_cons_self _ _))
            · exact Or.inl (Or.inr (by omega))
          · exact Or.inr (by omega)
end

end RomExtractor
namespace RomExtractor

open RomAssembler FileTable

mutual
theorem depthT_le (t : FsTree) : depthT t ≤ countDirs t := by
  rcases t with ⟨files, subs⟩
  simp only [depthT, countDirs]
  have := depthF_le subs
  omega
theorem depthF_le (s : FsForest) : depthF s ≤ countDirsF s := by
  rcases s with _ | ⟨n, t, rest⟩
  · simp [depthF, countDirsF]
  · simp only [depthF, countDirsF]
    have h1 := depthT_le t
    have h2 := depthF_le rest
    have h3 := countDirs_pos t
    omega
end

theorem parseFileTable_ser (t : FsTree) (A : List FlatRec) (hA : A = flatT t 61440 0 0)
    (hR32 : 8 * A.length + sumSub A < 4294967296)
    (hvalid : validT t = true) (hdc : countDirs t ≤ 4096) (hcf : countFiles t < 65536) :
    parseFileTable (fntBytes A A.length) = Except.ok (pdirT t 0) := by
  have hlen : A.length = countDirs t := by
    rw [hA]
    exact flatT_length t _ _ _
  have hA4096 : A.length ≤ 4096 := by omega
  obtain ⟨v, hpd, _⟩ := parseT_ok A hR32 hA4096 t (A.length + 1) 61440 0 0 [61440] [] []
    (by simpa using hA) (by simp) hvalid
    (by
      intro i hi
      rw [List.mem_singleton] at hi
      subst hi
      exact Or.inl (le_refl _))
    (by have := depthT_le t; omega) (by omega)
  have hne : A ≠ [] := by
    intro h
    have := countDirs_pos t
    rw [h] at hlen
    simp at hlen
    omega
  obtain ⟨r0, rest, hAc⟩ := List.exists_cons_of_ne_nil hne
  simp only [parseFileTable, fnt_read_dc A A.length r0 rest hAc (by omega), hpd]

end RomExtractor

namespace RomExtractor

open RomAssembler FileTable

mutual
/-- File contents of a tree in depth-first file-id order. -/
def contentsT : FsTree → List (List Nat)
  | .node files subs => files.map Prod.snd ++ contentsF subs
/-- File contents of a forest. -/
def contentsF : FsForest → List (List Nat)
  | .fnil => []
  | .fcons _ t rest => contentsT t ++ contentsF rest
end

theorem cat_append {α : Type} (a b : List (List α)) : cat (a ++ b) = cat a ++ cat b := by
  induction a with
  | nil => simp [cat]
  | cons x xs ih => simp [cat, ih]

theorem contentsA_cons (r : FlatRec) (rest : List FlatRec) :
    contentsA (r :: rest) = r.files.map Prod.snd ++ contentsA rest := rfl

theorem contentsA_append (x y : List FlatRec) :
    contentsA (x ++ y) = contentsA x ++ contentsA y := by
  simp [contentsA, cat_append]

mutual
theorem contentsA_flatT (t : FsTree) :
    ∀ (m p f : Nat), contentsA (flatT t m p f) = contentsT t := by
  rcases t with ⟨files, subs⟩
  intro m p f
  simp only [flatT, contentsT]
  rw [contentsA_cons, contentsA_flatF subs]
theorem contentsA_flatF (s : FsForest) :
    ∀ (m p f : Nat), contentsA (flatF s m p f) = contentsF s := by
  rcases s with _ | ⟨n, t, rest⟩
  · intro m p f
    rfl
  · intro m p f
    simp only [flatF, contentsF]
    rw [contentsA_append, contentsA_flatT t, contentsA_flatF rest]
end

mutual
theorem contentsT_length (t : FsTree) : (contentsT t).length = countFiles t := by
  rcases t with ⟨files, subs⟩
  simp only [contentsT, countFiles, List.length_append, List.length_map]
  rw [contentsF_length subs]
theorem contentsF_length (s : FsForest) : (contentsF s).length = countFilesF s := by
  rcases s with _ | ⟨n, t, rest⟩
  · rfl
  · simp only [contentsF, countFilesF, List.length_append]
    rw [contentsT_length t, contentsF_length rest]
end

/-- Total byte length of a chunk list. -/
def sumLen : List (List Nat) → Nat
  | [] => 0
  | c :: rest => c.length + sumLen rest

theorem fatGo_length (cs : List (List Nat)) : ∀ off, (fatGo cs off).length = 8 * cs.length := by
  induction cs with
  | nil => intro off; rfl
  | cons c rest ih =>
    intro off
    simp only [fatGo, List.length_append, u32b_length, ih, List.length_cons]
    omega

theorem sumLen_take_le (cs : List (List Nat)) : ∀ j, sumLen (cs.take j) ≤ sumLen cs := by
  induction cs with
  | nil => intro j; simp
  | cons c rest ih =>
    intro j
    rcases j with _ | j
    · simp [sumLen]
    · simp only [List.take_succ_cons, sumLen]
      have := ih j
      omega

theorem cat_length_sum (cs : List (List Nat)) : (cat cs).length = sumLen cs := by
  induction cs with
  | nil => rfl
  | cons c rest ih =>
    simp only [cat, List.length_append, ih, sumLen]

theorem cat_drop_sum (cs : List (List Nat)) :
    ∀ (j : Nat) (hj : j < cs.length),
      (cat cs).drop (sumLen (cs.take j)) = cs.get ⟨j, hj⟩ ++ cat (cs.drop (j + 1)) := by
  induction cs with
  | nil => intro j hj; simp at hj
  | cons c rest ih =>
    intro j hj
    rcases j with _ | j
    · simp [sumLen, cat]
    · simp only [List.take_succ_cons, sumLen, cat, List.get_cons_succ]
      rw [List.drop_append_eq_append_drop]
      rw [show c.length + sumLen (rest.take j) - c.length = sumLen (rest.take j) from by omega]
      rw [List.drop_eq_nil_of_le (by omega)]
      rw [List.nil_append]
      simp only [List.length_cons] at hj
      rw [ih j (by omega)]
      rfl

theorem fatGo_read (cs : List (List Nat)) :
    ∀ (j : Nat) (hj : j < cs.length) (off : Nat) (tail : List Nat),
      off + sumLen (cs.take (j + 1)) < 4294967296 →
      readU32 (fatGo cs off ++ tail) (8 * j) = some (off + sumLen (cs.take j)) ∧
      readU32 (fatGo cs off ++ tail) (8 * j + 4) = some (off + sumLen (cs.take (j + 1))) := by
  induction cs with
  | nil => intro j hj; simp at hj
  | cons c rest ih =>
    intro j hj off tail hb
    have hb1 : off + sumLen ((c :: rest).take (0 + 1)) = off + c.length := by
      simp [sumLen]
    rcases j with _ | j
    · constructor
      · rw [show (8 * 0 : Nat) = 0 from rfl,
          show off + sumLen ((c :: rest).take 0) = off from by simp [sumLen]]
        rw [show fatGo (c :: rest) off ++ tail
            = u32b off ++ (u32b (off + c.length) ++ fatGo rest (off + c.length) ++ tail) from by
          simp [fatGo, List.append_assoc]]
        exact readU32_here off _ (by simp [sumLen] at hb; omega)
      · rw [show (8 * 0 + 4 : Nat) = 4 + 0 from rfl, readU32_shift, hb1]
        rw [show fatGo (c :: rest) off ++ tail
            = u32b off ++ (u32b (off + c.length) ++ (fatGo rest (off + c.length) ++ tail)) from by
          simp [fatGo, List.append_assoc]]
        rw [drop_append_left 4 (u32b_length off)]
        exact readU32_here _ _ (by simp [sumLen] at hb ⊢; omega)
    · have hdrop8 : (fatGo (c :: rest) off ++ tail).drop 8
          = fatGo rest (off + c.length) ++ tail := by
        rw [show fatGo (c :: rest) off ++ tail
            = (u32b off ++ u32b (off + c.length))
              ++ (fatGo rest (off + c.length) ++ tail) from by
          simp [fatGo, List.append_assoc]]
        exact drop_append_left 8 (by simp [u32b])
      have harith : ∀ k, off + sumLen ((c :: rest).take (k + 1))
          = (off + c.length) + sumLen (rest.take k) := by
        intro k
        simp only [List.take_succ_cons, sumLen]
        omega
      have hj2 : j < rest.length := by simpa using hj
      have hres := ih j hj2 (off + c.length) tail (by rw [← harith]; exact hb)
      constructor
      · rw [show 8 * (j + 1) = 8 + 8 * j from by omega, readU32_shift, hdrop8, harith]
        exact hres.1
      · rw [show 8 * (j + 1) + 4 = 8 + (8 * j + 4) from by omega, readU32_shift, hdrop8, harith]
        exact hres.2
end RomExtractor
namespace RomExtractor

open RomAssembler FileTable

theorem drop_add {α : Type} (l : List α) (off k : Nat) :
    (l.drop off).drop k = l.drop (off + k) := by
  rw [List.drop_drop, Nat.add_comm]

theorem sumLen_take_succ (cs : List (List Nat)) :
    ∀ (j : Nat) (hj : j < cs.length),
      sumLen (cs.take (j + 1)) = sumLen (cs.take j) + (cs.get ⟨j, hj⟩).length := by
  induction cs with
  | nil => intro j hj; simp at hj
  | cons c rest ih =>
    intro j hj
    rcases j with _ | j
    · simp [sumLen]
    · simp only [List.take_succ_cons, sumLen, List.get_cons_succ]
      rw [ih j (by simpa using hj)]
      omega

theorem fetchFile_at (img hdr fnt : List Nat) (cs : List (List Nat)) (fatOff dataOff : Nat)
    (himg : img = hdr ++ (fnt ++ (fatGo cs dataOff ++ cat cs)))
    (hfo : fatOff = hdr.length + fnt.length)
    (hdo : dataOff = fatOff + 8 * cs.length)
    (hile : img.length < 4294967296) :
    ∀ (j : Nat) (hj : j < cs.length),
      fetchFile img fatOff j = Except.ok (cs.get ⟨j, hj⟩) := by
  intro j hj
  have himglen : img.length = dataOff + sumLen cs := by
    rw [himg]
    simp [List.length_append, fatGo_length, cat_length_sum]
    omega
  have hdropfat : img.drop fatOff = fatGo cs dataOff ++ cat cs := by
    rw [himg, show hdr ++ (fnt ++ (fatGo cs dataOff ++ cat cs))
        = (hdr ++ fnt) ++ (fatGo cs dataOff ++ cat cs) from by simp [List.append_assoc]]
    exact drop_append_left fatOff (by simp [hfo])
  have hb32 : dataOff + sumLen (cs.take (j + 1)) < 4294967296 := by
    have := sumLen_take_le cs (j + 1)
    omega
  have hfat := fatGo_read cs j hj dataOff (cat cs) hb32
  have hr1 : readU32 img (fatOff + 8 * j) = some (dataOff + sumLen (cs.take j)) := by
    rw [readU32_shift, hdropfat]
    exact hfat.1
  have hr2 : readU32 img (fatOff + 8 * j + 4) = some (dataOff + sumLen (cs.take (j + 1))) := by
    rw [show fatOff + 8 * j + 4 = fatOff + (8 * j + 4) from by omega, readU32_shift, hdropfat]
    exact hfat.2
  have hsucc : sumLen (cs.take (j + 1)) = sumLen (cs.take j) + (cs.get ⟨j, hj⟩).length :=
    sumLen_take_succ cs j hj
  have hdropdata : img.drop dataOff = cat cs := by
    rw [himg, show hdr ++ (fnt ++ (fatGo cs dataOff ++ cat cs))
        = ((hdr ++ fnt) ++ fatGo cs dataOff) ++ cat cs from by simp [List.append_assoc]]
    exact drop_append_left dataOff (by simp [List.length_append, fatGo_length]; omega)
  have hslice : (img.drop (dataOff + sumLen (cs.take j))).take
      (dataOff + sumLen (cs.take (j + 1)) - (dataOff + sumLen (cs.take j)))
      = cs.get ⟨j, hj⟩ := by
    rw [show dataOff + sumLen (cs.take (j + 1)) - (dataOff + sumLen (cs.take j))
        = (cs.get ⟨j, hj⟩).length from by omega]
    rw [← drop_at, hdropdata, cat_drop_sum cs j hj]
    exact List.take_left' rfl
  have hcond : dataOff + sumLen (cs.take j) ≤ dataOff + sumLen (cs.take (j + 1))
      ∧ dataOff + sumLen (cs.take (j + 1)) ≤ img.length := by
    have := sumLen_take_le cs (j + 1)
    omega
  simp only [fetchFile, hr1, hr2, if_pos hcond, hslice]

theorem resolveFiles_withIds (img : List Nat) (fatOff : Nat) (cs : List (List Nat))
    (hfetch : ∀ (fid : Nat) (hf : fid < cs.length),
      fetchFile img fatOff fid = Except.ok (cs.get ⟨fid, hf⟩)) :
    ∀ (fs : List (List Nat × List Nat)) (firstId : Nat) (rem : List (List Nat)),
      cs.drop firstId = fs.map Prod.snd ++ rem →
      resolveFiles img fatOff (withIds firstId (fs.map Prod.fst)) = Except.ok fs := by
  intro fs
  induction fs with
  | nil =>
    intro firstId rem hdrop
    rfl
  | cons fc rest ih =>
    intro firstId rem hdrop
    obtain ⟨n, c⟩ := fc
    have hdrop' : cs.drop firstId = c :: (rest.map Prod.snd ++ rem) := by
      simpa using hdrop
    have hfi : firstId < cs.length := by
      by_contra hge
      push_neg at hge
      rw [List.drop_eq_nil_of_le hge] at hdrop'
      cases hdrop'
    have hget : cs.get ⟨firstId, hfi⟩ = c := by
      have h1 : cs[firstId]? = some c := by
        have h := List.getElem?_drop cs firstId 0
        rw [hdrop'] at h
        simpa using h.symm
      have h2 : cs[firstId]? = some (cs.get ⟨firstId, hfi⟩) := by
        rw [List.getElem?_eq_getElem hfi, List.get_eq_getElem]
      exact Option.some.inj (h2.symm.trans h1)
    have hdrop2 : cs.drop (firstId + 1) = rest.map Prod.snd ++ rem := by
      rw [← drop_add, hdrop']
      rfl
    show resolveFiles img fatOff ((n, firstId) :: withIds (firstId + 1) (rest.map Prod.fst))
        = Except.ok ((n, c) :: rest)
    simp only [resolveFiles, hfetch firstId hfi, hget, ih (firstId + 1) rem hdrop2]

mutual
theorem resolveT_ok (img : List Nat) (fatOff : Nat) (cs : List (List Nat))
    (hfetch : ∀ (fid : Nat) (hf : fid < cs.length),
      fetchFile img fatOff fid = Except.ok (cs.get ⟨fid, hf⟩)) :
    ∀ (t : FsTree) (fuel firstId : Nat) (rem : List (List Nat)),
      cs.drop firstId = contentsT t ++ rem →
      depthT t ≤ fuel →
      resolvePDir img fatOff fuel (pdirT t firstId) = Except.ok t := by
  intro t
  rcases t with ⟨files, subs⟩
  intro fuel firstId rem hdrop hfuel
  rcases fuel with _ | f
  · exfalso
    simp only [depthT] at hfuel
    omega
  simp only [depthT] at hfuel
  simp only [contentsT] at hdrop
  have hdropFiles : cs.drop firstId = files.map Prod.snd ++ (contentsF subs ++ rem) := by
    rw [hdrop, List.append_assoc]
  have hdropF : cs.drop (firstId + files.length) = contentsF subs ++ rem := by
    rw [← drop_add, hdropFiles]
    exact List.drop_left' (by simp)
  simp only [pdirT]
  simp only [resolvePDir,
    resolveFiles_withIds img fatOff cs hfetch files firstId (contentsF subs ++ rem) hdropFiles,
    resolveF_ok img fatOff cs hfetch subs f (firstId + files.length) rem hdropF (by omega)]
theorem resolveF_ok (img : List Nat) (fatOff : Nat) (cs : List (List Nat))
    (hfetch : ∀ (fid : Nat) (hf : fid < cs.length),
      fetchFile img fatOff fid = Except.ok (cs.get ⟨fid, hf⟩)) :
    ∀ (s : FsForest) (fuel nextFile : Nat) (rem : List (List Nat)),
      cs.drop nextFile = contentsF s ++ rem →
      depthF s ≤ fuel →
      resolveSubsWith (resolvePDir img fatOff fuel) (pdirF s nextFile) = Except.ok s := by
  intro s
  rcases s with _ | ⟨n, t, rest⟩
  · intro fuel nextFile rem hdrop hfuel
    rfl
  · intro fuel nextFile rem hdrop hfuel
    simp only [contentsF] at hdrop
    simp only [depthF] at hfuel
    have hdropT : cs.drop nextFile = contentsT t ++ (contentsF rest ++ rem) := by
      rw [hdrop, List.append_assoc]
    have hdropR : cs.drop (nextFile + countFiles t) = contentsF rest ++ rem := by
      rw [← drop_add, hdropT]
      exact List.drop_left' (contentsT_length t)
    simp only [pdirF]
    simp only [resolveSubsWith,
      resolveT_ok img fatOff cs hfetch t fuel nextFile (contentsF rest ++ rem) hdropT (by omega),
      resolveF_ok img fatOff cs hfetch rest fuel (nextFile + countFiles t) rem hdropR (by omega)]
end

theorem extract_image (t : FsTree)
    (hvalid : validT t = true) (hdc : countDirs t ≤ 4096) (hcf : countFiles t < 61440)
    (hile : (image t).length < 4294967296) :
    extract (image t) = Except.ok t := by
  obtain ⟨A, hA⟩ : ∃ A, A = flatT t 61440 0 0 := ⟨_, rfl⟩
  obtain ⟨fnt, hfnt⟩ : ∃ f, f = fntBytes A A.length := ⟨_, rfl⟩
  obtain ⟨cs, hcs⟩ : ∃ c, c = contentsA A := ⟨_, rfl⟩
  have hAlen : A.length = countDirs t := by
    rw [hA]
    exact flatT_length t _ _ _
  have himg : image t
      = u32b 16 ++ (u32b fnt.length ++ (u32b (16 + fnt.length) ++ (u32b (8 * cs.length)
        ++ (fnt ++ (fatGo cs (16 + fnt.length + 8 * cs.length) ++ cat cs))))) := by
    rw [hfnt, hcs, hA]
    simp [image, List.append_assoc]
  have himglen : (image t).length = 16 + fnt.length + 8 * cs.length + sumLen cs := by
    rw [himg]
    simp [List.length_append, u32b, fatGo_length, cat_length_sum]
    omega
  have hfnteq : fnt.length = 8 * A.length + sumSub A := by
    rw [hfnt]
    exact fntBytes_length A A.length
  have h8 : 8 * A.length + sumSub A < 4294967296 := by omega
  have hr0 : readU32 (image t) 0 = some 16 := by
    rw [himg]
    exact readU32_here 16 _ (by norm_num)
  have hr4 : readU32 (image t) 4 = some fnt.length := by
    rw [himg, show (4 : Nat) = 4 + 0 from rfl, readU32_shift,
      drop_append_left 4 (u32b_length 16)]
    exact readU32_here _ _ (by omega)
  have hr8 : readU32 (image t) 8 = some (16 + fnt.length) := by
    rw [himg, show (8 : Nat) = 8 + 0 from rfl, readU32_shift,
      show u32b 16 ++ (u32b fnt.length ++ (u32b (16 + fnt.length) ++ (u32b (8 * cs.length)
          ++ (fnt ++ (fatGo cs (16 + fnt.length + 8 * cs.length) ++ cat cs)))))
        = (u32b 16 ++ u32b fnt.length) ++ (u32b (16 + fnt.length) ++ (u32b (8 * cs.length)
          ++ (fnt ++ (fatGo cs (16 + fnt.length + 8 * cs.length) ++ cat cs))))
        from by simp [List.append_assoc],
      drop_append_left 8 (by simp [u32b])]
    exact readU32_here _ _ (by omega)
  have hdrop16 : (image t).drop 16
      = fnt ++ (fatGo cs (16 + fnt.length + 8 * cs.length) ++ cat cs) := by
    rw [himg, show u32b 16 ++ (u32b fnt.length ++ (u32b (16 + fnt.length) ++ (u32b (8 * cs.length)
          ++ (fnt ++ (fatGo cs (16 + fnt.length + 8 * cs.length) ++ cat cs)))))
        = (u32b 16 ++ (u32b fnt.length ++ (u32b (16 + fnt.length) ++ u32b (8 * cs.length))))
          ++ (fnt ++ (fatGo cs (16 + fnt.length + 8 * cs.length) ++ cat cs))
        from by simp [List.append_assoc],
      drop_append_left 16 (by simp [u32b])]
  have hregion : ((image t).drop 16).take fnt.length = fnt := by
    rw [hdrop16]
    exact List.take_left' rfl
  have hne : A ≠ [] := by
    intro h
    have := countDirs_pos t
    rw [h] at hAlen
    simp at hAlen
    omega
  obtain ⟨r0, rest, hAc⟩ := List.exists_cons_of_ne_nil hne
  have hdcread : readU16 fnt 6 = some A.length := by
    rw [hfnt]
    exact fnt_read_dc A A.length r0 rest hAc (by omega)
  have hpft : parseFileTable fnt = Except.ok (pdirT t 0) := by
    rw [hfnt]
    exact parseFileTable_ser t A hA h8 hvalid hdc (by omega)
  have hcontents : cs = contentsT t := by
    rw [hcs, hA]
    exact contentsA_flatT t _ _ _
  have hfetch := fetchFile_at (image t)
    (u32b 16 ++ (u32b fnt.length ++ (u32b (16 + fnt.length) ++ u32b (8 * cs.length))))
    fnt cs (16 + fnt.length) (16 + fnt.length + 8 * cs.length)
    (by rw [himg]; simp [List.append_assoc])
    (by simp [u32b]) rfl hile
  rw [hcontents] at hfetch
  have hresolve := resolveT_ok (image t) (16 + fnt.length) (contentsT t) hfetch t
    (A.length + 1) 0 []
    (by simp)
    (by
      have := depthT_le t
      omega)
  simp only [extract, hr0, hr4, hr8, hregion, hdcread, hpft, hresolve]

end RomExtractor
/-- C1: build/extract roundtrip — for every directory tree the builder
accepts (`build` returns an image rather than `CapacityOverflow`), running
the extraction pipeline on that image reproduces a tree structurally equal
to the input with byte-identical file contents. -/
theorem c1_build_extract_roundtrip (t : RomAssembler.FsTree) (cap : Nat) (img : List Nat)
    (hb : RomAssembler.build t cap = Except.ok img) :
    RomExtractor.extract img = Except.ok t := by
  simp only [RomAssembler.build] at hb
  by_cases hcond : RomAssembler.validT t = true ∧ RomAssembler.countDirs t ≤ 4096
      ∧ RomAssembler.countFiles t < 61440
      ∧ (RomAssembler.image t).length ≤ 131072 * 2 ^ cap
      ∧ (RomAssembler.image t).length < 4294967296
  · rw [if_pos hcond] at hb
    rcases hcond with ⟨hv, hdc, hcf, _, hlt⟩
    injection hb with himg
    rw [← himg]
    exact RomExtractor.extract_image t hv hdc hcf hlt
  · rw [if_neg hcond] at hb
    cases hb

set_option maxRecDepth 8000 in
/-- Witness for C1: a nested two-directory, two-file tree builds at capacity
class 0 and extracts back to itself. -/
theorem c1_build_extract_roundtrip_witness :
    RomExtractor.extract (RomAssembler.image
      (RomAssembler.FsTree.node [([97], [1, 2, 3])]
        (RomAssembler.FsForest.fcons [98]
          (RomAssembler.FsTree.node [([99], List.replicate 20 255)] RomAssembler.FsForest.fnil)
          RomAssembler.FsForest.fnil)))
      = Except.ok (RomAssembler.FsTree.node [([97], [1, 2, 3])]
        (RomAssembler.FsForest.fcons [98]
          (RomAssembler.FsTree.node [([99], List.replicate 20 255)] RomAssembler.FsForest.fnil)
          RomAssembler.FsForest.fnil)) :=
  c1_build_extract_roundtrip _ 0 _ (by rfl)
